import Mathlib

/-!
Shallow embedding of the `bound` repository (commit ingestion, ownership
resolution, membership matching, attribution and reporting) together with
theorems settling the specification claims.

Modelling conventions:
* Rust `usize`/`i32`/`i64` become `Nat`/`Int`; the lossy `i32 as usize`
  cast is modelled explicitly modulo `2^64`.
* Rust `f64` (only used for adjusted commit weights) is modelled as `ℚ`.
* `HashMap`s that are only read through keyed lookups are modelled as
  association lists updated in encounter order; the places where the code
  materialises a hash map into a vector (whose iteration order is
  arbitrary) take the materialised list as an explicit argument, so that
  order-dependence can be stated.
* Rust's stable `sort_by` with comparator `cmp` is modelled by the stable
  insertion sort `sortStable le` with `le a b := (cmp a b ≠ Greater)`.
* Fallible iterators (`Iterator<Item = Result<_, io::Error>>`) become
  lists of `Except` values.
-/

namespace Bound

/-! ### Character-level string utilities

Rust's `str::split(char)`, `BufRead::lines`, `str::to_lowercase` and
string ordering are modelled on `List Char` (a Lean `String` is a list of
chars), so that everything evaluates in the kernel. -/

/-- Splitting a character list at every occurrence of the separator,
keeping empty segments, as Rust's `str::split(sep)` does. -/
def splitOnChar (sep : Char) : List Char → List (List Char)
  | [] => [[]]
  | c :: cs =>
    if c = sep then
      [] :: splitOnChar sep cs
    else
      match splitOnChar sep cs with
      | [] => [[c]]
      | s :: ss => (c :: s) :: ss

/-- String version of `splitOnChar`, used to model `line.split('\t')`. -/
def splitStr (sep : Char) (s : String) : List String :=
  (splitOnChar sep s.data).map String.mk

theorem splitOnChar_ne_nil (sep : Char) (l : List Char) : splitOnChar sep l ≠ [] := by
  cases l with
  | nil => simp [splitOnChar]
  | cons c cs =>
    simp only [splitOnChar]
    split
    · simp
    · cases h : splitOnChar sep cs <;> simp

theorem splitOnChar_sepFree (sep : Char) (l : List Char) (h : sep ∉ l) :
    splitOnChar sep l = [l] := by
  induction l with
  | nil => rfl
  | cons c cs ih =>
    have hc : c ≠ sep := fun hE => h (hE ▸ List.mem_cons_self c cs)
    have hcs : sep ∉ cs := fun hm => h (List.mem_cons_of_mem c hm)
    simp only [splitOnChar, if_neg hc, ih hcs]

theorem splitOnChar_append_sep (sep : Char) (l r : List Char) (h : sep ∉ l) :
    splitOnChar sep (l ++ sep :: r) = l :: splitOnChar sep r := by
  induction l with
  | nil => simp [splitOnChar]
  | cons c cs ih =>
    have hc : c ≠ sep := fun hE => h (hE ▸ List.mem_cons_self c cs)
    have hcs : sep ∉ cs := fun hm => h (List.mem_cons_of_mem c hm)
    have ihe : splitOnChar sep (cs.append (sep :: r)) = cs :: splitOnChar sep r := ih hcs
    simp only [List.cons_append, splitOnChar, if_neg hc, ihe]

/-- Lexicographic strict comparison of character lists by code point; this
is the order `Ord`/`cmp` induces on Rust strings (UTF-8 byte order agrees
with code-point order). -/
def lexLt : List Char → List Char → Bool
  | [], [] => false
  | [], _ :: _ => true
  | _ :: _, [] => false
  | a :: as, b :: bs => if a < b then true else if b < a then false else lexLt as bs

/-- Total order on strings modelling `String::cmp(a, b) != Greater`. -/
def strLe (a b : String) : Bool := ! lexLt b.data a.data

theorem lexLt_asymm (a b : List Char) (h : lexLt a b = true) : lexLt b a = false := by
  induction a generalizing b with
  | nil =>
    cases b with
    | nil => simp [lexLt] at h
    | cons y ys => simp [lexLt]
  | cons x xs ih =>
    cases b with
    | nil => simp [lexLt] at h
    | cons y ys =>
      simp only [lexLt] at h ⊢
      rcases lt_trichotomy x y with hlt | heq | hgt
      · rw [if_neg (asymm hlt), if_pos hlt]
      · subst heq
        rw [if_neg (lt_irrefl x), if_neg (lt_irrefl x)] at h ⊢
        exact ih ys h
      · rw [if_neg (asymm hgt), if_pos hgt] at h
        exact absurd h Bool.false_ne_true

theorem lexLt_trans (a b c : List Char) (hab : lexLt a b = true) (hbc : lexLt b c = true) :
    lexLt a c = true := by
  induction a generalizing b c with
  | nil =>
    cases c with
    | nil =>
      cases b with
      | nil => exact hab
      | cons y ys => simp [lexLt] at hbc
    | cons z zs => simp [lexLt]
  | cons x xs ih =>
    cases b with
    | nil => simp [lexLt] at hab
    | cons y ys =>
      cases c with
      | nil => simp [lexLt] at hbc
      | cons z zs =>
        simp only [lexLt] at hab hbc ⊢
        rcases lt_trichotomy x y with hxy | hxy | hxy
        · rcases lt_trichotomy y z with hyz | hyz | hyz
          · simp [if_pos (hxy.trans hyz)]
          · subst hyz; simp [if_pos hxy]
          · simp [if_neg (asymm hyz), if_pos hyz] at hbc
        · subst hxy
          simp only [lt_irrefl, if_neg (lt_irrefl x), if_false] at hab
          rcases lt_trichotomy x z with hxz | hxz | hxz
          · simp [if_pos hxz]
          · subst hxz
            simp only [lt_irrefl, if_neg (lt_irrefl x), if_false] at hbc ⊢
            exact ih ys zs hab hbc
          · simp [if_neg (asymm hxz), if_pos hxz] at hbc
        · simp [if_neg (asymm hxy), if_pos hxy] at hab

theorem lexLt_connex (a b : List Char) (hab : lexLt a b = false) (hba : lexLt b a = false) :
    a = b := by
  induction a generalizing b with
  | nil =>
    cases b with
    | nil => rfl
    | cons y ys => simp [lexLt] at hab
  | cons x xs ih =>
    cases b with
    | nil => simp [lexLt] at hba
    | cons y ys =>
      simp only [lexLt] at hab hba
      rcases lt_trichotomy x y with hxy | hxy | hxy
      · simp [if_pos hxy] at hab
      · subst hxy
        simp only [lt_irrefl, if_neg (lt_irrefl x), if_false] at hab hba
        exact congrArg (x :: ·) (ih ys hab hba)
      · simp [if_pos hxy] at hba

theorem lexLt_false_trans (a b c : List Char) (hba : lexLt b a = false)
    (hcb : lexLt c b = false) : lexLt c a = false := by
  rcases hab : lexLt a b with _ | _
  · have : a = b := lexLt_connex a b hab hba
    subst this
    exact hcb
  · rcases hbc : lexLt b c with _ | _
    · have : b = c := lexLt_connex b c hbc hcb
      subst this
      exact hba
    · exact lexLt_asymm a c (lexLt_trans a b c hab hbc)

theorem strLe_total (a b : String) : strLe a b || strLe b a := by
  simp only [strLe, Bool.or_eq_true, Bool.not_eq_true']
  rcases h : lexLt b.data a.data with _ | _
  · exact Or.inl rfl
  · exact Or.inr (lexLt_asymm _ _ h)

theorem strLe_trans (a b c : String) (hab : strLe a b = true) (hbc : strLe b c = true) :
    strLe a c = true := by
  simp only [strLe, Bool.not_eq_true'] at hab hbc ⊢
  exact lexLt_false_trans a.data b.data c.data hab hbc

theorem strLe_antisymm (a b : String) (hab : strLe a b = true) (hba : strLe b a = true) :
    a = b := by
  simp only [strLe, Bool.not_eq_true'] at hab hba
  cases a with
  | mk da =>
    cases b with
    | mk db =>
      exact congrArg String.mk (lexLt_connex da db hba hab)

/-- Lowercasing as `str::to_lowercase` (restricted to the ASCII mapping
that `Char.toLower` implements; all claims and counterexamples stay in
ASCII). -/
def lowerStr (s : String) : String := String.mk (s.data.map Char.toLower)

/-! ### Stable sorting

`sortStable le` is a stable insertion sort: it computes exactly the
permutation Rust's stable `Vec::sort_by` produces when `le a b` models
`cmp(a, b) != Greater` for a total preorder comparator. -/

/-- Inserting an element before the first position whose inhabitant is not
required to precede it; ties keep the existing element after `x`, which
together with `sortStable`'s right fold yields stability. -/
def insertOrdered (le : α → α → Bool) (x : α) : List α → List α
  | [] => [x]
  | y :: ys => if le x y then x :: y :: ys else y :: insertOrdered le x ys

/-- Stable sort by a boolean total preorder, modelling Rust `sort_by`. -/
def sortStable (le : α → α → Bool) (l : List α) : List α :=
  l.foldr (insertOrdered le) []

theorem insertOrdered_perm (le : α → α → Bool) (x : α) (l : List α) :
    (insertOrdered le x l).Perm (x :: l) := by
  induction l with
  | nil => exact List.Perm.refl _
  | cons y ys ih =>
    simp only [insertOrdered]
    split
    · exact List.Perm.refl _
    · exact (List.Perm.cons y ih).trans (List.Perm.swap x y ys)

theorem sortStable_perm (le : α → α → Bool) (l : List α) : (sortStable le l).Perm l := by
  induction l with
  | nil => exact List.Perm.refl _
  | cons x xs ih =>
    simp only [sortStable, List.foldr_cons]
    exact (insertOrdered_perm le x _).trans (List.Perm.cons x ih)

theorem mem_insertOrdered (le : α → α → Bool) (x : α) (l : List α) (z : α)
    (h : z ∈ insertOrdered le x l) : z = x ∨ z ∈ l :=
  List.mem_cons.mp ((List.Perm.mem_iff (insertOrdered_perm le x l)).mp h)

theorem insertOrdered_pairwise (le : α → α → Bool)
    (htrans : ∀ a b c, le a b = true → le b c = true → le a c = true)
    (htot : ∀ a b, le a b || le b a) (x : α) (l : List α)
    (h : l.Pairwise (fun a b => le a b = true)) :
    (insertOrdered le x l).Pairwise (fun a b => le a b = true) := by
  induction l with
  | nil => simp [insertOrdered]
  | cons y ys ih =>
    rcases List.pairwise_cons.mp h with ⟨hy, hys⟩
    simp only [insertOrdered]
    split
    · rename_i hxy
      refine List.pairwise_cons.mpr ⟨?_, h⟩
      intro z hz
      rcases List.mem_cons.mp hz with hz | hz
      · exact hz ▸ hxy
      · exact htrans x y z hxy (hy z hz)
    · rename_i hxy
      have hyx : le y x = true := by
        rcases Bool.or_eq_true_iff.mp (htot x y) with hE | hE
        · exact absurd hE hxy
        · exact hE
      refine List.pairwise_cons.mpr ⟨?_, ih hys⟩
      intro z hz
      rcases mem_insertOrdered le x ys z hz with hz | hz
      · exact hz ▸ hyx
      · exact hy z hz

theorem sortStable_pairwise (le : α → α → Bool)
    (htrans : ∀ a b c, le a b = true → le b c = true → le a c = true)
    (htot : ∀ a b, le a b || le b a) (l : List α) :
    (sortStable le l).Pairwise (fun a b => le a b = true) := by
  induction l with
  | nil => simp [sortStable]
  | cons x xs ih =>
    simp only [sortStable, List.foldr_cons]
    exact insertOrdered_pairwise le htrans htot x _ ih

/-- Sorting two materialisations of the same finite map (two lists that
are permutations of each other) by a key on which they do not collide
yields the same list: hash-map iteration order is masked by the sort
whenever the sort key is duplicate-free. -/
theorem sortStable_eq_of_perm (key : α → β) (le : β → β → Bool)
    (htrans : ∀ a b c, le a b = true → le b c = true → le a c = true)
    (htot : ∀ a b, le a b || le b a)
    (hanti : ∀ a b, le a b = true → le b a = true → a = b)
    (l₁ l₂ : List α) (hp : l₁.Perm l₂) (hnd : (l₁.map key).Nodup) :
    sortStable (fun a b => le (key a) (key b)) l₁ =
      sortStable (fun a b => le (key a) (key b)) l₂ := by
  have hleT : ∀ a b c : α, le (key a) (key b) = true → le (key b) (key c) = true →
      le (key a) (key c) = true := fun a b c h1 h2 => htrans _ _ _ h1 h2
  have hleTot : ∀ a b : α, le (key a) (key b) || le (key b) (key a) :=
    fun a b => htot _ _
  have hs₁ := sortStable_pairwise _ hleT hleTot l₁
  have hs₂ := sortStable_pairwise _ hleT hleTot l₂
  have hperm : (sortStable (fun a b => le (key a) (key b)) l₁).Perm
      (sortStable (fun a b => le (key a) (key b)) l₂) :=
    ((sortStable_perm _ l₁).trans hp).trans (sortStable_perm _ l₂).symm
  have hndKey : ∀ m : List α, m.Perm l₁ → m.Pairwise (fun a b => key a ≠ key b) := by
    intro m hm
    have : (m.map key).Nodup := ((hm.map key).nodup_iff).mpr hnd
    exact List.pairwise_map.mp this
  have hnd₁ := hndKey (sortStable (fun a b => le (key a) (key b)) l₁)
    (sortStable_perm (fun a b => le (key a) (key b)) l₁)
  have hnd₂ := hndKey (sortStable (fun a b => le (key a) (key b)) l₂)
    ((sortStable_perm (fun a b => le (key a) (key b)) l₂).trans hp.symm)
  have hstrict : ∀ m : List α, m.Pairwise (fun a b => le (key a) (key b) = true) →
      m.Pairwise (fun a b => key a ≠ key b) →
      m.Pairwise (fun a b => le (key a) (key b) = true ∧ key a ≠ key b) :=
    fun m h1 h2 => h1.and h2
  haveI : IsAntisymm α (fun a b => le (key a) (key b) = true ∧ key a ≠ key b) :=
    ⟨fun a b h1 h2 => absurd (hanti _ _ h1.1 h2.1) h1.2⟩
  exact List.eq_of_perm_of_sorted hperm (hstrict _ hs₁ hnd₁) (hstrict _ hs₂ hnd₂)

/-! ### Integer parsing

Models Rust's `str::parse::<i32>` / `::<i64>`: an optional sign, at least
one ASCII digit, and a range check; anything else is `none`. -/

/-- All-digits parse of a character list; `none` when empty or any
character is not an ASCII digit. -/
def parseDigits : List Char → Option Nat
  | [] => none
  | [c] => if c.isDigit then some (c.toNat - '0'.toNat) else none
  | c :: cs =>
    if c.isDigit then
      (parseDigits cs).map (fun n => (c.toNat - '0'.toNat) * 10 ^ cs.length + n)
    else none

/-- Signed decimal integer parse (whole-string, as Rust `str::parse`). -/
def parseIntStr (s : String) : Option Int :=
  match s.data with
  | '+' :: ds => (parseDigits ds).map Int.ofNat
  | '-' :: ds => (parseDigits ds).map (fun n => -(n : Int))
  | ds => (parseDigits ds).map Int.ofNat

/-- Model of `str::parse::<i32>`: out-of-range values are errors. -/
def parse_i32 (s : String) : Option Int :=
  (parseIntStr s).bind fun n =>
    if -(2 ^ 31) ≤ n ∧ n ≤ 2 ^ 31 - 1 then some n else none

/-- Model of `str::parse::<i64>`. -/
def parse_i64 (s : String) : Option Int :=
  (parseIntStr s).bind fun n =>
    if -(2 ^ 63) ≤ n ∧ n ≤ 2 ^ 63 - 1 then some n else none

/-- The lossy Rust cast `i as usize` of an `i32` value, modulo `2^64`. -/
def usizeOfI32 (i : Int) : Nat := (i % (2 ^ 64 : Int)).toNat

/-! ### `commit.rs`: the commit stream parser

`CommitIterator` consumes the output of `LineReader`, an iterator of
`io::Result<String>` items, modelled as a `List (Except ε String)`.
`next` returns `none` for end of iteration, `some (Except.error _)` for a
reported error, and on success the parsed commit plus the remaining
lines (the iterator's new state). -/

structure FileChange where
  insertions : Int
  deletions : Int
  path : String
deriving DecidableEq

structure CommitInfo where
  id : String
  timestamp : Int
  author_name : String
  author_email : String
  file_changes : List FileChange
deriving DecidableEq

/-- The `io::Error` values `CommitIterator::next` can produce: its own
`InvalidData`/`UnexpectedEof` errors, or an underlying line error passed
through (only possible at the blank-separator position). -/
inductive CommitParseError (ε : Type) where
  | expectedCOMMIT
  | invalidTimestamp
  | incompleteCommitInfo
  | expectedEmptyLine (line : String)
  | invalidFileChangeFormat (line : String)
  | ioPassthrough (e : ε)
deriving DecidableEq

/-- One iteration of the commit-details loop (`for _ in 0..4`): the first
still-empty field in the order id, timestamp, author name, author email
receives the line; a timestamp that does not parse is an error. -/
def commitDetailStep (ci : CommitInfo) (line : String) :
    Except (CommitParseError ε) CommitInfo :=
  match ci.id.isEmpty with
  | true => .ok { ci with id := line }
  | false =>
    match ci.timestamp == 0 with
    | true =>
      match parse_i64 line with
      | some t => .ok { ci with timestamp := t }
      | none => .error .invalidTimestamp
    | false =>
      match ci.author_name.isEmpty with
      | true => .ok { ci with author_name := line }
      | false => .ok { ci with author_email := line }

/-- The four commit-details lines; end of input or a line error inside
them is the `UnexpectedEof` "Incomplete commit info" error. -/
def parseCommitDetails :
    Nat → CommitInfo → List (Except ε String) →
      Except (CommitParseError ε) (CommitInfo × List (Except ε String))
  | 0, ci, lines => .ok (ci, lines)
  | n + 1, ci, lines =>
    match lines with
    | .ok line :: rest =>
      match commitDetailStep ci line with
      | .ok ci2 => parseCommitDetails n ci2 rest
      | .error e => .error e
    | _ => .error .incompleteCommitInfo

/-- The file-change loop of `CommitIterator::next`: peek; stop (without
consuming) at `COMMIT`, end of input or a line error; a line with exactly
three tab-separated fields yields a `FileChange` whose unparsable counts
default to `0` (`parse().unwrap_or(0)`); any other field count is an
`InvalidData` error. -/
def parseFileChangesLoop :
    List (Except ε String) → List FileChange →
      Except (CommitParseError ε) (List FileChange × List (Except ε String))
  | .ok line :: rest, acc =>
    if line = "COMMIT" then .ok (acc, .ok line :: rest)
    else
      match splitStr '\t' line with
      | [f0, f1, f2] =>
        parseFileChangesLoop rest
          (acc ++ [⟨(parse_i32 f0).getD 0, (parse_i32 f1).getD 0, f2⟩])
      | _ => .error (.invalidFileChangeFormat line)
  | lines, acc => .ok (acc, lines)

/-- Shared tail of `CommitIterator::next`: run the file-change loop and
attach the changes to the commit. -/
def finishChanges (ci : CommitInfo) (lines : List (Except ε String)) :
    Option (Except (CommitParseError ε) (CommitInfo × List (Except ε String))) :=
  match parseFileChangesLoop lines [] with
  | .error e => some (.error e)
  | .ok (chs, rest) => some (.ok ({ ci with file_changes := chs }, rest))

/-- `CommitIterator::next`. The opening `if let Some(Ok(line)) =
self.lines.next()` treats end of input and an `Err` item identically:
both take the `else` branch and return `None`. The blank separator test
`line.trim().is_empty()` is modelled as "every character is whitespace". -/
def CommitIterator.next (lines : List (Except ε String)) :
    Option (Except (CommitParseError ε) (CommitInfo × List (Except ε String))) :=
  match lines with
  | .ok line :: rest =>
    if line = "COMMIT" then
      match parseCommitDetails 4 ⟨"", 0, "", "", []⟩ rest with
      | .error e => some (.error e)
      | .ok (ci, rest2) =>
        match rest2 with
        | .ok line2 :: rest3 =>
          if line2.data.all Char.isWhitespace then finishChanges ci rest3
          else some (.error (.expectedEmptyLine line2))
        | .error e :: _ => some (.error (.ioPassthrough e))
        | [] => finishChanges ci []
    else some (.error .expectedCOMMIT)
  | _ => none

/-- Claim C9: a file-change line with exactly three tab-separated fields
is never an error, whatever its numeric fields contain: the loop records
`parse().unwrap_or(0)` for each count, appends a `FileChange` and
continues with the remaining lines; in particular the binary-file marker
`-` fails to parse and so is recorded as `0`. -/
theorem fileChange_line_with_three_fields_never_errors {ε : Type}
    (line f0 f1 f2 : String) (rest : List (Except ε String))
    (acc : List FileChange) (hne : line ≠ "COMMIT")
    (hsplit : splitStr '\t' line = [f0, f1, f2]) :
    parseFileChangesLoop (.ok line :: rest) acc =
      parseFileChangesLoop rest
        (acc ++ [⟨(parse_i32 f0).getD 0, (parse_i32 f1).getD 0, f2⟩]) ∧
    parse_i32 "-" = none := by
  refine ⟨?_, by decide⟩
  simp only [parseFileChangesLoop, if_neg hne, hsplit]

/-- Witness for C9 at the concrete binary-file line `-<TAB>-<TAB>data.bin`. -/
theorem fileChange_line_with_three_fields_never_errors_witness :
    parseFileChangesLoop ([Except.ok "-\t-\tdata.bin"] : List (Except Unit String)) [] =
      parseFileChangesLoop ([] : List (Except Unit String))
        [⟨0, 0, "data.bin"⟩] ∧
    parse_i32 "-" = none :=
  fileChange_line_with_three_fields_never_errors
    "-\t-\tdata.bin" "-" "-" "data.bin" [] [] (by decide) (by decide)

/-- Claim C10: when the line source yields an `Err` item at the position
where the `COMMIT` sentinel is expected, `CommitIterator::next` returns
`None`, exactly as for end of input: the error is absorbed and the commit
sequence silently ends. -/
theorem ioError_at_sentinel_position_absorbed {ε : Type} (e : ε)
    (rest : List (Except ε String)) :
    CommitIterator.next (.error e :: rest) = none ∧
    CommitIterator.next ([] : List (Except ε String)) = none :=
  ⟨rfl, rfl⟩

/-! ### `owner.rs`: commit-by-commit ownership resolution

`CommitWithCodeownersIterator` keeps an LRU-of-one cache
`cached_owners : Option<codeowners::Owners>`. The parsed rule-set type
and `get_owners_at_commit` are external to the claims, so they are
abstracted as a type `α` and a function `fetch : String → α` (commit id
to rule set); `resolverStep` returns the rule set used for a commit plus
whether a (re)fetch happened, and `resolverRun` threads the cache through
a commit sequence exactly as `next` does. -/

def CODEOWNERS_LOCATIONS : List String :=
  [".github/CODEOWNERS", "CODEOWNERS", "docs/CODEOWNERS"]

/-- The cache-invalidation test of `owner.rs`: does the commit's change
list touch one of the well-known ownership-file locations? -/
def codeowners_changed (commit : CommitInfo) : Bool :=
  commit.file_changes.any fun change => CODEOWNERS_LOCATIONS.contains change.path

/-- The fetch-or-reuse decision of `CommitWithCodeownersIterator::next`:
`if self.cached_owners.is_none() || codeowners_changed(&commit)` refetch,
else reuse the cache. -/
def resolverStep (fetch : String → α) : Option α → CommitInfo → α × Bool
  | none, commit => (fetch commit.id, true)
  | some owners, commit =>
    if codeowners_changed commit then (fetch commit.id, true) else (owners, false)

/-- Iterating `resolverStep` over a commit sequence, threading the cache. -/
def resolverRun (fetch : String → α) : Option α → List CommitInfo → List (α × Bool)
  | _, [] => []
  | cached, commit :: rest =>
    let st := resolverStep fetch cached commit
    st :: resolverRun fetch (some st.1) rest

theorem resolverRun_warm_flags (fetch : String → α) (o : α) (cs : List CommitInfo)
    (i : Nat) :
    ((resolverRun fetch (some o) cs)[i]?.map Prod.snd)
      = cs[i]?.map codeowners_changed := by
  induction cs generalizing o i with
  | nil => simp [resolverRun]
  | cons c cs ih =>
    cases i with
    | zero =>
      cases hc : codeowners_changed c <;>
        simp [resolverRun, resolverStep, hc]
    | succ i =>
      cases hc : codeowners_changed c <;>
        simpa [resolverRun, resolverStep, hc] using ih _ i

/-- Claim C2: starting from a cold cache, the resolver fetches at commit
`i` exactly when `i` is the first commit or commit `i` touches one of the
well-known ownership-file locations; in particular, in a three-commit run
where only the middle commit touches such a path, the first commit does
the initial fetch, the middle commit does the only re-fetch, and the
third commit reuses the rule set cached at the middle commit. -/
theorem resolver_cache_contract (fetch : String → α) :
    (∀ (cs : List CommitInfo) (i : Nat),
      ((resolverRun fetch none cs)[i]?.map Prod.snd)
        = cs[i]?.map (fun c => (decide (i = 0) || codeowners_changed c)))
    ∧ (∀ c1 c2 c3 : CommitInfo, codeowners_changed c1 = false →
        codeowners_changed c2 = true → codeowners_changed c3 = false →
        resolverRun fetch none [c1, c2, c3]
          = [(fetch c1.id, true), (fetch c2.id, true), (fetch c2.id, false)]) := by
  constructor
  · intro cs i
    cases cs with
    | nil => simp [resolverRun]
    | cons c cs =>
      cases i with
      | zero => simp [resolverRun, resolverStep]
      | succ i =>
        simpa [resolverRun, resolverStep] using resolverRun_warm_flags fetch _ cs i
  · intro c1 c2 c3 h1 h2 h3
    simp [resolverRun, resolverStep, h1, h2, h3]

/-- Witness for C2: a concrete three-commit sequence where only the middle
commit touches `CODEOWNERS`; with `fetch` returning the commit id's
length, the run is initial-fetch, re-fetch, reuse-of-middle. -/
theorem resolver_cache_contract_witness :
    resolverRun (fun s => s.length) none
      [⟨"a", 0, "x", "x@y", [⟨1, 0, "src/a.rs"⟩]⟩,
       ⟨"bb", 1, "x", "x@y", [⟨2, 0, "CODEOWNERS"⟩]⟩,
       ⟨"ccc", 2, "x", "x@y", [⟨3, 0, "src/b.rs"⟩]⟩]
      = [(1, true), (2, true), (2, false)] :=
  (resolver_cache_contract (fun s => s.length)).2
    ⟨"a", 0, "x", "x@y", [⟨1, 0, "src/a.rs"⟩]⟩
    ⟨"bb", 1, "x", "x@y", [⟨2, 0, "CODEOWNERS"⟩]⟩
    ⟨"ccc", 2, "x", "x@y", [⟨3, 0, "src/b.rs"⟩]⟩
    (by decide) (by decide) (by decide)

/-! ### Membership rosters

`owner.rs` builds `AuthorMembership`, two HashMap-of-HashSet indices keyed
by exact email and exact name (modelled as association lists of lists,
inserted in encounter order); `co.rs` instead matches a roster entry
directly with `author_matches`, lowercasing both sides. The roster entry
struct has the same shape in both modules and is defined once. -/

structure AuthorCodeownerMemberships where
  author_email : Option String
  author_name : Option String
  codeowner : String
deriving DecidableEq

structure CommitAuthor where
  name : String
  email : String
deriving DecidableEq

/-- The matcher of `co.rs` (`AuthorCodeownerMemberships::author_matches`):
case-insensitive comparison on email OR case-insensitive comparison on
name, each only when the roster field is present. -/
def author_matches (m : AuthorCodeownerMemberships) (author : CommitAuthor) : Bool :=
  (match m.author_email with
   | some e => lowerStr e == lowerStr author.email
   | none => false)
  ||
  (match m.author_name with
   | some n => lowerStr n == lowerStr author.name
   | none => false)

/-- `map.entry(k).or_insert_with(HashSet::new).insert(v)` on a
HashMap-of-HashSet, as an association list of duplicate-free lists. -/
def multimapInsert (map : List (String × List String)) (k v : String) :
    List (String × List String) :=
  match map with
  | [] => [(k, [v])]
  | (k2, vs) :: rest =>
    if k2 = k then (k2, if v ∈ vs then vs else vs ++ [v]) :: rest
    else (k2, vs) :: multimapInsert rest k v

/-- `map.get(k)`, with a missing key behaving as the empty set. -/
def multimapGet (map : List (String × List String)) (k : String) : List String :=
  match map with
  | [] => []
  | (k2, vs) :: rest => if k2 = k then vs else multimapGet rest k

structure AuthorMembership where
  email_to_codeowner : List (String × List String)
  name_to_codeowner : List (String × List String)
deriving DecidableEq

/-- The body of `AuthorMembership::new`'s roster loop: index the entry's
codeowner under its email (when present) and its name (when present). -/
def AuthorMembership.insertEntry (am : AuthorMembership)
    (m : AuthorCodeownerMemberships) : AuthorMembership :=
  let am2 := match m.author_email with
    | some email =>
      { am with email_to_codeowner := multimapInsert am.email_to_codeowner email m.codeowner }
    | none => am
  match m.author_name with
  | some nm =>
    { am2 with name_to_codeowner := multimapInsert am2.name_to_codeowner nm m.codeowner }
  | none => am2

/-- `AuthorMembership::new`. -/
def AuthorMembership.new (memberships : List AuthorCodeownerMemberships) :
    AuthorMembership :=
  memberships.foldl AuthorMembership.insertEntry ⟨[], []⟩

/-- `AuthorMembership::get_codeowners_for_author`: the union of the exact
email lookup and the exact name lookup (union as concatenation; only
membership is ever consumed). -/
def get_codeowners_for_author (am : AuthorMembership)
    (author_name author_email : String) : List String :=
  multimapGet am.email_to_codeowner author_email ++
    multimapGet am.name_to_codeowner author_name

/-- `AuthorMembership::is_codeowner`. -/
def is_codeowner (am : AuthorMembership)
    (author_name author_email codeowner : String) : Bool :=
  decide (codeowner ∈ get_codeowners_for_author am author_name author_email)

/-- `owner.rs`'s `is_author_codeowner`: is the commit author a member of
any of the file's owner groups. -/
def is_author_codeowner (memberships : AuthorMembership) (owners : List String)
    (commit_author_name commit_author_email : String) : Bool :=
  owners.any fun owner =>
    is_codeowner memberships commit_author_name commit_author_email owner

theorem multimapGet_insert_ne (map : List (String × List String))
    (k v k2 : String) (hne : k2 ≠ k) :
    multimapGet (multimapInsert map k v) k2 = multimapGet map k2 := by
  induction map with
  | nil =>
    have h' : ¬ k = k2 := fun hE => hne hE.symm
    simp [multimapInsert, multimapGet, h']
  | cons p rest ih =>
    obtain ⟨k3, vs⟩ := p
    by_cases h3 : k3 = k
    · subst h3
      have h32 : ¬ k3 = k2 := fun hE => hne hE.symm
      simp [multimapInsert, multimapGet, h32]
    · by_cases h2 : k3 = k2 <;>
        simp [multimapInsert, multimapGet, h3, h2, ih, hne]

theorem mem_multimapGet_insert_self (map : List (String × List String))
    (k v w : String) :
    w ∈ multimapGet (multimapInsert map k v) k ↔
      (w = v ∨ w ∈ multimapGet map k) := by
  induction map with
  | nil => simp [multimapInsert, multimapGet]
  | cons p rest ih =>
    obtain ⟨k3, vs⟩ := p
    by_cases h3 : k3 = k
    · subst h3
      by_cases hv : v ∈ vs
      · have hstep : multimapGet (multimapInsert ((k3, vs) :: rest) k3 v) k3 = vs := by
          simp [multimapInsert, multimapGet, hv]
        have hbase : multimapGet ((k3, vs) :: rest) k3 = vs := by
          simp [multimapGet]
        rw [hstep, hbase]
        constructor
        · intro hw
          exact Or.inr hw
        · rintro (rfl | hw)
          · exact hv
          · exact hw
      · have hstep : multimapGet (multimapInsert ((k3, vs) :: rest) k3 v) k3
            = vs ++ [v] := by
          simp [multimapInsert, multimapGet, hv]
        have hbase : multimapGet ((k3, vs) :: rest) k3 = vs := by
          simp [multimapGet]
        rw [hstep, hbase]
        simp only [List.mem_append, List.mem_singleton]
        tauto
    · simp [multimapInsert, multimapGet, h3, ih]

theorem mem_multimapGet_insert (map : List (String × List String))
    (k v k2 w : String) :
    w ∈ multimapGet (multimapInsert map k v) k2 ↔
      ((k2 = k ∧ w = v) ∨ w ∈ multimapGet map k2) := by
  by_cases h : k2 = k
  · subst h
    simpa using mem_multimapGet_insert_self map k2 v w
  · simp [multimapGet_insert_ne map k v k2 h, h]

theorem is_codeowner_iff_mem (am : AuthorMembership)
    (name email owner : String) :
    is_codeowner am name email owner = true ↔
      (owner ∈ multimapGet am.email_to_codeowner email ∨
       owner ∈ multimapGet am.name_to_codeowner name) := by
  simp [is_codeowner, get_codeowners_for_author]

theorem is_codeowner_insertEntry (am : AuthorMembership)
    (m : AuthorCodeownerMemberships) (name email owner : String) :
    is_codeowner (am.insertEntry m) name email owner = true ↔
      (is_codeowner am name email owner = true ∨
        (m.codeowner = owner ∧
          (m.author_email = some email ∨ m.author_name = some name))) := by
  cases hme : m.author_email with
  | none =>
    cases hmn : m.author_name with
    | none =>
      simp [AuthorMembership.insertEntry, hme, hmn]
    | some nm =>
      simp only [is_codeowner_iff_mem, AuthorMembership.insertEntry, hme, hmn,
        mem_multimapGet_insert]
      constructor
      · rintro (h | ⟨rfl, rfl⟩ | h)
        · exact Or.inl (Or.inl h)
        · exact Or.inr ⟨rfl, Or.inr rfl⟩
        · exact Or.inl (Or.inr h)
      · rintro ((h | h) | ⟨rfl, h | h⟩)
        · exact Or.inl h
        · exact Or.inr (Or.inr h)
        · simp at h
        · rcases h with ⟨rfl⟩
          exact Or.inr (Or.inl ⟨rfl, rfl⟩)
  | some e =>
    cases hmn : m.author_name with
    | none =>
      simp only [is_codeowner_iff_mem, AuthorMembership.insertEntry, hme, hmn,
        mem_multimapGet_insert]
      constructor
      · rintro ((⟨rfl, rfl⟩ | h) | h)
        · exact Or.inr ⟨rfl, Or.inl rfl⟩
        · exact Or.inl (Or.inl h)
        · exact Or.inl (Or.inr h)
      · rintro ((h | h) | ⟨rfl, h | h⟩)
        · exact Or.inl (Or.inr h)
        · exact Or.inr h
        · rcases h with ⟨rfl⟩
          exact Or.inl (Or.inl ⟨rfl, rfl⟩)
        · simp at h
    | some nm =>
      simp only [is_codeowner_iff_mem, AuthorMembership.insertEntry, hme, hmn,
        mem_multimapGet_insert]
      constructor
      · rintro ((⟨rfl, rfl⟩ | h) | ⟨rfl, rfl⟩ | h)
        · exact Or.inr ⟨rfl, Or.inl rfl⟩
        · exact Or.inl (Or.inl h)
        · exact Or.inr ⟨rfl, Or.inr rfl⟩
        · exact Or.inl (Or.inr h)
      · rintro ((h | h) | ⟨rfl, h | h⟩)
        · exact Or.inl (Or.inr h)
        · exact Or.inr (Or.inr h)
        · rcases h with ⟨rfl⟩
          exact Or.inl (Or.inl ⟨rfl, rfl⟩)
        · rcases h with ⟨rfl⟩
          exact Or.inr (Or.inl ⟨rfl, rfl⟩)

theorem is_codeowner_foldl (ms : List AuthorCodeownerMemberships)
    (am : AuthorMembership) (name email owner : String) :
    is_codeowner (ms.foldl AuthorMembership.insertEntry am) name email owner = true ↔
      (is_codeowner am name email owner = true ∨
        ∃ m ∈ ms, m.codeowner = owner ∧
          (m.author_email = some email ∨ m.author_name = some name)) := by
  induction ms generalizing am with
  | nil => simp
  | cons m ms ih =>
    simp only [List.foldl_cons, ih, is_codeowner_insertEntry, List.mem_cons]
    constructor
    · rintro ((h | h) | ⟨mm, hmm, h⟩)
      · exact Or.inl h
      · exact Or.inr ⟨m, Or.inl rfl, h⟩
      · exact Or.inr ⟨mm, Or.inr hmm, h⟩
    · rintro (h | ⟨mm, rfl | hmm, h⟩)
      · exact Or.inl (Or.inl h)
      · exact Or.inl (Or.inr h)
      · exact Or.inr ⟨mm, hmm, h⟩

/-- Claim C3 counterexample: a roster entry whose email differs from the
author's only by letter case. `co.rs`'s `author_matches` accepts it, but
the `AuthorMembership` index actually used by the `owner.rs` pipeline
looks email and name up exactly, so the claimed case-insensitive matching
fails there. -/
theorem membership_case_insensitivity_cex :
    author_matches ⟨some "A@X.COM", none, "team"⟩ ⟨"n", "a@x.com"⟩ = true ∧
    is_codeowner (AuthorMembership.new [⟨some "A@X.COM", none, "team"⟩])
      "n" "a@x.com" "team" = false := by
  constructor
  · decide
  · decide

/-- Claim C3 (amended): email and name are independent OR-conditions in
both matchers, but only `co.rs`'s `author_matches` compares
case-insensitively; the `AuthorMembership` roster index of `owner.rs`
matches an author against an entry by exact, case-sensitive equality on
email or on name. -/
theorem author_membership_matching (ms : List AuthorCodeownerMemberships)
    (name email owner : String) (m : AuthorCodeownerMemberships)
    (author : CommitAuthor) :
    (is_codeowner (AuthorMembership.new ms) name email owner = true ↔
      ∃ mm ∈ ms, mm.codeowner = owner ∧
        (mm.author_email = some email ∨ mm.author_name = some name))
    ∧ (author_matches m author = true ↔
      ((∃ e, m.author_email = some e ∧ lowerStr e = lowerStr author.email) ∨
       (∃ n, m.author_name = some n ∧ lowerStr n = lowerStr author.name))) := by
  constructor
  · have h := is_codeowner_foldl ms ⟨[], []⟩ name email owner
    simpa [is_codeowner, get_codeowners_for_author, multimapGet] using h
  · cases hme : m.author_email <;> cases hmn : m.author_name <;>
      simp [author_matches, hme, hmn]

/-! ### TSV roster persistence (`owner.rs`)

`write_memberships_to_tsv` produces the file content (one header line,
then one `email TAB name TAB codeowner` line per entry, each terminated
by `writeln!`'s newline, absent fields written as the empty string);
`read_memberships_from_tsv` consumes the content through `BufRead::lines`
semantics, skips the first line, and requires exactly three tab-separated
fields per line, decoding the empty string back to an absent field. -/

def membershipLine (m : AuthorCodeownerMemberships) : String :=
  (m.author_email.getD "") ++ "\t" ++ (m.author_name.getD "") ++ "\t" ++ m.codeowner

/-- The record lines written by the `for membership in memberships` loop. -/
def writeMembershipLines : List AuthorCodeownerMemberships → String
  | [] => ""
  | m :: rest => membershipLine m ++ "\n" ++ writeMembershipLines rest

/-- Full file content produced by `write_memberships_to_tsv`. -/
def write_memberships_to_tsv (memberships : List AuthorCodeownerMemberships) : String :=
  "author_email\tauthor_name\tcodeowner" ++ "\n" ++ writeMembershipLines memberships

/-- A trailing carriage return is stripped by `BufRead::lines`. -/
def stripCR (l : List Char) : List Char :=
  if l.getLast? = some '\r' then l.dropLast else l

/-- Dropping the empty segment a terminating newline produces. -/
def dropTrailingEmpty (parts : List (List Char)) : List (List Char) :=
  if parts.getLast? = some [] then parts.dropLast else parts

/-- `BufRead::lines` over a whole string: split on newlines, drop the
empty segment a terminating newline produces, strip one trailing CR. -/
def rustLines (s : String) : List String :=
  (dropTrailingEmpty (splitOnChar '\n' s.data)).map fun l => String.mk (stripCR l)

/-- One record line of `read_memberships_from_tsv`: exactly three
tab-separated fields or an `InvalidData` error; empty decodes to `None`. -/
def parseMembershipLine (line : String) : Except String AuthorCodeownerMemberships :=
  match splitStr '\t' line with
  | [e, n, c] =>
    .ok ⟨(if e = "" then none else some e), (if n = "" then none else some n), c⟩
  | _ => .error ("Invalid line: " ++ line)

def readMembershipLines : List String → Except String (List AuthorCodeownerMemberships)
  | [] => .ok []
  | line :: rest =>
    match parseMembershipLine line with
    | .ok m => (readMembershipLines rest).map fun ms => m :: ms
    | .error e => .error e

/-- `read_memberships_from_tsv`: skip the header line, parse the rest. -/
def read_memberships_from_tsv (s : String) :
    Except String (List AuthorCodeownerMemberships) :=
  readMembershipLines ((rustLines s).drop 1)

/-- A string that survives being embedded in a record line: no field
separator, no line terminator, no carriage return. -/
def fieldOk (s : String) : Prop :=
  '\t' ∉ s.data ∧ '\n' ∉ s.data ∧ '\r' ∉ s.data

/-- A present optional field must furthermore be distinguishable from an
absent one, i.e. nonempty. -/
def optFieldOk : Option String → Prop
  | none => True
  | some s => fieldOk s ∧ s ≠ ""

def membershipOk (m : AuthorCodeownerMemberships) : Prop :=
  optFieldOk m.author_email ∧ optFieldOk m.author_name ∧ fieldOk m.codeowner

theorem stripCR_no_cr (l : List Char) (h : '\r' ∉ l) : stripCR l = l := by
  unfold stripCR
  rw [if_neg]
  intro hE
  have hmem : '\r' ∈ l.getLast? := Option.mem_def.mpr hE
  obtain ⟨hne, hEq⟩ := List.mem_getLast?_eq_getLast hmem
  exact h (hEq.symm ▸ List.getLast_mem hne)

theorem membershipLine_data (m : AuthorCodeownerMemberships) :
    (membershipLine m).data =
      (m.author_email.getD "").data ++
        '\t' :: ((m.author_name.getD "").data ++ '\t' :: m.codeowner.data) := by
  simp [membershipLine, String.data_append]

theorem optField_data_ok (o : Option String) (ho : optFieldOk o) :
    '\t' ∉ (o.getD "").data ∧ '\n' ∉ (o.getD "").data ∧ '\r' ∉ (o.getD "").data := by
  cases o with
  | none => simp [Option.getD]
  | some s => exact ho.1

theorem membershipLine_no_newline (m : AuthorCodeownerMemberships)
    (hm : membershipOk m) : '\n' ∉ (membershipLine m).data := by
  obtain ⟨he, hn, hc⟩ := hm
  have he' := (optField_data_ok _ he).2.1
  have hn' := (optField_data_ok _ hn).2.1
  have hc' := hc.2.1
  rw [membershipLine_data]
  simp [List.mem_append, he', hn', hc']

theorem membershipLine_no_cr (m : AuthorCodeownerMemberships)
    (hm : membershipOk m) : '\r' ∉ (membershipLine m).data := by
  obtain ⟨he, hn, hc⟩ := hm
  have he' := (optField_data_ok _ he).2.2
  have hn' := (optField_data_ok _ hn).2.2
  have hc' := hc.2.2
  rw [membershipLine_data]
  simp [List.mem_append, he', hn', hc']

theorem splitStr_membershipLine (m : AuthorCodeownerMemberships)
    (hm : membershipOk m) :
    splitStr '\t' (membershipLine m) =
      [m.author_email.getD "", m.author_name.getD "", m.codeowner] := by
  obtain ⟨he, hn, hc⟩ := hm
  have he' := (optField_data_ok _ he).1
  have hn' := (optField_data_ok _ hn).1
  have hc' := hc.1
  unfold splitStr
  rw [membershipLine_data, splitOnChar_append_sep _ _ _ he',
    splitOnChar_append_sep _ _ _ hn', splitOnChar_sepFree _ _ hc']
  rfl

theorem parseMembershipLine_roundtrip (m : AuthorCodeownerMemberships)
    (hm : membershipOk m) : parseMembershipLine (membershipLine m) = .ok m := by
  unfold parseMembershipLine
  rw [splitStr_membershipLine m hm]
  obtain ⟨he, hn, _⟩ := hm
  have hEmail : (if (m.author_email.getD "") = "" then none
      else some (m.author_email.getD "")) = m.author_email := by
    cases hE : m.author_email with
    | none => simp [Option.getD]
    | some s =>
      have hs : s ≠ "" := by
        rw [hE] at he
        exact he.2
      simp [Option.getD, hs]
  have hName : (if (m.author_name.getD "") = "" then none
      else some (m.author_name.getD "")) = m.author_name := by
    cases hE : m.author_name with
    | none => simp [Option.getD]
    | some s =>
      have hs : s ≠ "" := by
        rw [hE] at hn
        exact hn.2
      simp [Option.getD, hs]
  simp [hEmail, hName]

theorem splitOnChar_writeMembershipLines (ms : List AuthorCodeownerMemberships)
    (h : ∀ m ∈ ms, membershipOk m) :
    splitOnChar '\n' (writeMembershipLines ms).data =
      (ms.map fun m => (membershipLine m).data) ++ [[]] := by
  induction ms with
  | nil => rfl
  | cons m rest ih =>
    have hm := h m (List.mem_cons_self m rest)
    have hrest : ∀ m2 ∈ rest, membershipOk m2 :=
      fun m2 hm2 => h m2 (List.mem_cons_of_mem m hm2)
    have hdata : (writeMembershipLines (m :: rest)).data =
        (membershipLine m).data ++ '\n' :: (writeMembershipLines rest).data := by
      show (membershipLine m ++ "\n" ++ writeMembershipLines rest).data = _
      simp [String.data_append]
    rw [hdata, splitOnChar_append_sep _ _ _ (membershipLine_no_newline m hm), ih hrest]
    rfl

theorem rustLines_write (ms : List AuthorCodeownerMemberships)
    (h : ∀ m ∈ ms, membershipOk m) :
    rustLines (write_memberships_to_tsv ms) =
      "author_email\tauthor_name\tcodeowner" :: ms.map membershipLine := by
  have hheader : '\n' ∉ ("author_email\tauthor_name\tcodeowner" : String).data := by
    decide
  have hdata : (write_memberships_to_tsv ms).data =
      ("author_email\tauthor_name\tcodeowner" : String).data ++
        '\n' :: (writeMembershipLines ms).data := by
    show (("author_email\tauthor_name\tcodeowner" : String) ++ "\n" ++
      writeMembershipLines ms).data = _
    simp [String.data_append]
  have hdrop : ∀ parts : List (List Char),
      dropTrailingEmpty (parts ++ [[]]) = parts := by
    intro parts
    unfold dropTrailingEmpty
    rw [if_pos (List.getLast?_concat _), List.dropLast_concat]
  unfold rustLines
  rw [hdata, splitOnChar_append_sep _ _ _ hheader,
    splitOnChar_writeMembershipLines ms h]
  have hconcat : ("author_email\tauthor_name\tcodeowner" : String).data ::
      ((ms.map fun m => (membershipLine m).data) ++ [[]]) =
      (("author_email\tauthor_name\tcodeowner" : String).data ::
        (ms.map fun m => (membershipLine m).data)) ++ ([[]] : List (List Char)) := by
    simp
  rw [hconcat, hdrop]
  have hhead : String.mk (stripCR ("author_email\tauthor_name\tcodeowner" : String).data)
      = "author_email\tauthor_name\tcodeowner" := by
    rw [stripCR_no_cr _ (by decide)]
  have htail : List.map ((fun l => String.mk (stripCR l)) ∘ fun m => (membershipLine m).data) ms
      = List.map membershipLine ms := by
    apply List.map_congr_left
    intro m hm
    show String.mk (stripCR (membershipLine m).data) = membershipLine m
    rw [stripCR_no_cr _ (membershipLine_no_cr m (h m hm))]
  rw [List.map_cons, List.map_map, hhead, htail]

/-- Claim C7 counterexample: a roster entry whose email contains a tab
produces a four-field line, so reading back the written roster fails with
an `InvalidData` error instead of reproducing the roster. -/
theorem roster_roundtrip_cex :
    read_memberships_from_tsv
        (write_memberships_to_tsv [⟨some "a\tb", none, "team"⟩])
      = .error "Invalid line: a\tb\t\tteam" ∧
    ∀ ms : List AuthorCodeownerMemberships,
      (Except.error "Invalid line: a\tb\t\tteam" :
        Except String (List AuthorCodeownerMemberships)) ≠ .ok ms :=
  ⟨rfl, fun _ h => Except.noConfusion h⟩

/-- Claim C7 (amended): the TSV roster round-trip `read(write(roster)) =
roster` holds for every roster, including entries with absent email or
absent name, provided each present field is free of tab, newline and
carriage-return characters and present optional fields are nonempty (the
empty string is the encoding of an absent field). -/
theorem roster_roundtrip (ms : List AuthorCodeownerMemberships)
    (h : ∀ m ∈ ms, membershipOk m) :
    read_memberships_from_tsv (write_memberships_to_tsv ms) = .ok ms := by
  unfold read_memberships_from_tsv
  rw [rustLines_write ms h]
  simp only [List.drop_succ_cons, List.drop_zero]
  induction ms with
  | nil => rfl
  | cons m rest ih =>
    have hm := h m (List.mem_cons_self m rest)
    have hrest : ∀ m2 ∈ rest, membershipOk m2 :=
      fun m2 hm2 => h m2 (List.mem_cons_of_mem m hm2)
    simp only [List.map_cons, readMembershipLines,
      parseMembershipLine_roundtrip m hm, ih hrest]
    rfl

/-- Witness for C7: a two-entry roster exercising both an absent email
and an absent name round-trips. -/
theorem roster_roundtrip_witness :
    read_memberships_from_tsv
        (write_memberships_to_tsv
          [⟨some "a@x.com", none, "team1"⟩, ⟨none, some "Ann", "team2"⟩])
      = .ok [⟨some "a@x.com", none, "team1"⟩, ⟨none, some "Ann", "team2"⟩] :=
  roster_roundtrip [⟨some "a@x.com", none, "team1"⟩, ⟨none, some "Ann", "team2"⟩]
    (by
      intro m hm
      rcases List.mem_cons.mp hm with rfl | hm2
      · simp only [membershipOk, optFieldOk, fieldOk]
        refine ⟨⟨⟨?_, ?_, ?_⟩, ?_⟩, trivial, ?_, ?_, ?_⟩ <;> decide
      · rcases List.mem_cons.mp hm2 with rfl | hm3
        · simp only [membershipOk, optFieldOk, fieldOk]
          refine ⟨trivial, ⟨⟨?_, ?_, ?_⟩, ?_⟩, ?_, ?_, ?_⟩ <;> decide
        · exact absurd hm3 (List.not_mem_nil m))

/-! ### `analyze.rs`: owner-centric attribution (`analyze_by_owner`)

The enriched records produced by the `owner.rs` pipeline. Counts are
`i32` in the source and are accumulated through the lossy `as usize`
cast; `f64` commit weights become `ℚ`. The three accumulator `HashMap`s
of `analyze_by_owner` are modelled as association lists updated in
encounter order (every access in the accumulation loop is a keyed
lookup, so only the materialisation points depend on iteration order). -/

structure FileChangeWithCodeowner where
  insertions : Int
  deletions : Int
  path : String
  codeowners : Option (List String)
  author_is_codeowner : Option Bool
deriving DecidableEq

structure CommitInfoWithCodeowner where
  id : String
  author_name : String
  author_email : String
  timestamp : Int
  file_changes : List FileChangeWithCodeowner
deriving DecidableEq

structure ContributorToOwnerInfo where
  author_name : String
  author_email : String
  metric_value : Nat
deriving DecidableEq

structure OwnerInfo where
  owner : String
  total_insertions_by_team : Nat
  total_deletions_by_team : Nat
  total_commits_by_team : Nat
  total_insertions_by_others : Nat
  total_deletions_by_others : Nat
  total_commits_by_others : Nat
  adjusted_changes_by_team : Nat
  adjusted_commits_by_team : ℚ
  adjusted_changes_by_others : Nat
  adjusted_commits_by_others : ℚ
  top_outside_contributors_by_changes : List ContributorToOwnerInfo
  top_outside_contributors_by_commits : List ContributorToOwnerInfo
  top_team_contributors_by_changes : List ContributorToOwnerInfo
  top_team_contributors_by_commits : List ContributorToOwnerInfo
deriving DecidableEq

/-- The zero-initialised `OwnerInfo` of `owners.entry(..).or_insert_with`. -/
def defaultOwnerInfo (owner : String) : OwnerInfo where
  owner := owner
  total_insertions_by_team := 0
  total_deletions_by_team := 0
  total_commits_by_team := 0
  total_insertions_by_others := 0
  total_deletions_by_others := 0
  total_commits_by_others := 0
  adjusted_changes_by_team := 0
  adjusted_commits_by_team := 0
  adjusted_changes_by_others := 0
  adjusted_commits_by_others := 0
  top_outside_contributors_by_changes := []
  top_outside_contributors_by_commits := []
  top_team_contributors_by_changes := []
  top_team_contributors_by_commits := []

/-- `map.entry(k).or_insert_with(dflt)` followed by an in-place mutation
`f`, on a `HashMap` modelled as an association list (new keys appended at
the end, i.e. in encounter order). -/
def assocUpdate [DecidableEq κ] (map : List (κ × β)) (k : κ) (dflt : β) (f : β → β) :
    List (κ × β) :=
  match map with
  | [] => [(k, f dflt)]
  | (k2, v) :: rest =>
    if k2 = k then (k2, f v) :: rest else (k2, v) :: assocUpdate rest k dflt f

/-- `map.get(k)`. -/
def assocGet [DecidableEq κ] (map : List (κ × β)) (k : κ) : Option β :=
  match map with
  | [] => none
  | (k2, v) :: rest => if k2 = k then some v else assocGet rest k

/-- Pass 1 of `analyze_by_owner`: the commit's total insertions, counted
once per `(change, owner)` attribution (the `+=` sits inside the loop
over the change's codeowners). -/
def commit_total_insertions (commit : CommitInfoWithCodeowner) : Nat :=
  commit.file_changes.foldl
    (fun acc change =>
      match change.codeowners with
      | some codeowners =>
        codeowners.foldl (fun acc2 _ => acc2 + usizeOfI32 change.insertions) acc
      | none => acc)
    0

/-- Pass 1 of `analyze_by_owner`: the `commit_changes_by_owner` map read
through `get(owner).unwrap_or(&0)`. -/
def commit_changes_by_owner (commit : CommitInfoWithCodeowner) (owner : String) : Nat :=
  commit.file_changes.foldl
    (fun acc change =>
      match change.codeowners with
      | some codeowners =>
        codeowners.foldl
          (fun acc2 o => if o = owner then acc2 + usizeOfI32 change.insertions else acc2)
          acc
      | none => acc)
    0

/-- The fractional commit weight of the adjusted mode:
`commit_changes_by_owner[owner] / commit_total_insertions`, or `0` for a
commit without attributed insertions. -/
def commitWeight (ctotal : Nat) (cbo : String → Nat) (owner : String) : ℚ :=
  if 0 < ctotal then (cbo owner : ℚ) / (ctotal : ℚ) else 0

/-- The mutation applied to one owner's `OwnerInfo` for one change in
pass 2 of `analyze_by_owner`. -/
def applyChangeToOwnerInfo (adjusted : Bool) (ctotal : Nat) (cbo : String → Nat)
    (change : FileChangeWithCodeowner) (owner : String) (oi : OwnerInfo) : OwnerInfo :=
  if change.author_is_codeowner.getD false then
    { oi with
      total_insertions_by_team := oi.total_insertions_by_team + usizeOfI32 change.insertions
      total_deletions_by_team := oi.total_deletions_by_team + usizeOfI32 change.deletions
      total_commits_by_team := oi.total_commits_by_team + 1
      adjusted_changes_by_team :=
        if adjusted then oi.adjusted_changes_by_team + usizeOfI32 change.insertions
        else oi.adjusted_changes_by_team
      adjusted_commits_by_team :=
        if adjusted then oi.adjusted_commits_by_team + commitWeight ctotal cbo owner
        else oi.adjusted_commits_by_team }
  else
    { oi with
      total_insertions_by_others := oi.total_insertions_by_others + usizeOfI32 change.insertions
      total_deletions_by_others := oi.total_deletions_by_others + usizeOfI32 change.deletions
      total_commits_by_others := oi.total_commits_by_others + 1
      adjusted_changes_by_others :=
        if adjusted then oi.adjusted_changes_by_others + usizeOfI32 change.insertions
        else oi.adjusted_changes_by_others
      adjusted_commits_by_others :=
        if adjusted then oi.adjusted_commits_by_others + commitWeight ctotal cbo owner
        else oi.adjusted_commits_by_others }

/-- Per-owner per-contributor `(cumulative changes, commit count)` pools. -/
abbrev ContribStats := List ((String × String) × (Nat × Nat))

/-- `update_contributor_stats`. -/
def update_contributor_stats (contributors : List (String × ContribStats))
    (owner : String) (commit : CommitInfoWithCodeowner)
    (change : FileChangeWithCodeowner) : List (String × ContribStats) :=
  assocUpdate contributors owner []
    (fun ocs =>
      assocUpdate ocs (commit.author_name, commit.author_email) (0, 0)
        (fun st =>
          (st.1 + (usizeOfI32 change.insertions + usizeOfI32 change.deletions), st.2 + 1)))

/-- The three accumulators threaded through `analyze_by_owner`'s loop. -/
structure ByOwnerState where
  owners : List (String × OwnerInfo)
  team_contributors : List (String × ContribStats)
  outside_contributors : List (String × ContribStats)
deriving DecidableEq

/-- The body of pass 2's `for owner in codeowners` loop: update the
owner's row, then the matching per-owner contributor pool. -/
def ownerChangeStep (adjusted : Bool) (commit : CommitInfoWithCodeowner)
    (ctotal : Nat) (cbo : String → Nat) (change : FileChangeWithCodeowner)
    (s2 : ByOwnerState) (owner : String) : ByOwnerState :=
  let s3 := { s2 with
    owners := assocUpdate s2.owners owner (defaultOwnerInfo owner)
      (applyChangeToOwnerInfo adjusted ctotal cbo change owner) }
  if change.author_is_codeowner.getD false then
    { s3 with
      team_contributors := update_contributor_stats s3.team_contributors owner commit change }
  else
    { s3 with
      outside_contributors :=
        update_contributor_stats s3.outside_contributors owner commit change }

/-- Pass 2 of `analyze_by_owner` for one file change: nothing at all for
a change without a codeowners annotation, otherwise one accumulator
update per owner in the change's owner list. -/
def processChange (adjusted : Bool) (commit : CommitInfoWithCodeowner)
    (ctotal : Nat) (cbo : String → Nat) (s : ByOwnerState)
    (change : FileChangeWithCodeowner) : ByOwnerState :=
  match change.codeowners with
  | none => s
  | some codeowners =>
    codeowners.foldl (ownerChangeStep adjusted commit ctotal cbo change) s

/-- One commit of `analyze_by_owner`: pass 1, then pass 2 over the
changes. -/
def processCommit (adjusted : Bool) (s : ByOwnerState)
    (commit : CommitInfoWithCodeowner) : ByOwnerState :=
  commit.file_changes.foldl
    (processChange adjusted commit (commit_total_insertions commit)
      (commit_changes_by_owner commit))
    s

/-- Descending stable sort by cumulative changes
(`sort_by(|a, b| changes_b.cmp(changes_a))`). -/
def sortedByChanges (contributors : ContribStats) : ContribStats :=
  sortStable (fun a b => decide (b.2.1 ≤ a.2.1)) contributors

/-- Descending stable sort by commit count. -/
def sortedByCommits (contributors : ContribStats) : ContribStats :=
  sortStable (fun a b => decide (b.2.2 ≤ a.2.2)) contributors

/-- Take the top ten of a sorted pool under the given metric. -/
def topMetric (metric : Nat × Nat → Nat) (sorted : ContribStats) :
    List ContributorToOwnerInfo :=
  (sorted.take 10).map fun p => ⟨p.1.1, p.1.2, metric p.2⟩

/-- `update_top_contributors` on one materialised contributor pool (the
argument's order is the hash map's iteration order): sort by changes and
take ten, then re-sort the same vector by commits and take ten. Both
sorts are stable, so ties keep the materialisation order. -/
def update_top_contributors (contributors : ContribStats) :
    List ContributorToOwnerInfo × List ContributorToOwnerInfo :=
  (topMetric Prod.fst (sortedByChanges contributors),
   topMetric Prod.snd (sortedByCommits (sortedByChanges contributors)))

/-- The finalisation loop of `analyze_by_owner`: install the four top-ten
lists into each owner row (a missing pool leaves the lists empty). -/
def finalizeOwner (s : ByOwnerState) (p : String × OwnerInfo) : OwnerInfo :=
  let oi1 := match assocGet s.team_contributors p.1 with
    | some pool =>
      { p.2 with
        top_team_contributors_by_changes := (update_top_contributors pool).1
        top_team_contributors_by_commits := (update_top_contributors pool).2 }
    | none => p.2
  match assocGet s.outside_contributors p.1 with
  | some pool =>
    { oi1 with
      top_outside_contributors_by_changes := (update_top_contributors pool).1
      top_outside_contributors_by_commits := (update_top_contributors pool).2 }
  | none => oi1

/-- `analyze_by_owner` over an already-enriched commit list (the
`Result` plumbing aborts on the first error and is orthogonal to the
claims): accumulate, finalise, and sort rows by owner name ascending. -/
def analyze_by_owner (commits : List CommitInfoWithCodeowner) (adjusted : Bool) :
    List OwnerInfo :=
  sortStable (fun a b => strLe a.owner b.owner)
    (((commits.foldl (processCommit adjusted) ⟨[], [], []⟩).owners).map
      (finalizeOwner (commits.foldl (processCommit adjusted) ⟨[], [], []⟩)))

/-- Sum of a projection over an owner accumulator. -/
def sumOwnersBy [AddCommMonoid M] (g : OwnerInfo → M)
    (owners : List (String × OwnerInfo)) : M :=
  (owners.map fun p => g p.2).sum

/-- Total raw insertions across all owner rows, team and others pooled. -/
def totalRawInsertions (owners : List (String × OwnerInfo)) : Nat :=
  sumOwnersBy (fun oi => oi.total_insertions_by_team + oi.total_insertions_by_others) owners

/-- Total adjusted commit weight across all owner rows, both pools. -/
def totalAdjustedCommits (owners : List (String × OwnerInfo)) : ℚ :=
  sumOwnersBy (fun oi => oi.adjusted_commits_by_team + oi.adjusted_commits_by_others) owners

/-- The `(owner, insertions)` attribution pairs of a change list: one
pair per owner per change, insertions counted through the `as usize`
cast. -/
def changeOwnerPairs (changes : List FileChangeWithCodeowner) : List (String × Nat) :=
  changes.foldr
    (fun change acc =>
      (match change.codeowners with
       | some codeowners => codeowners.map fun o => (o, usizeOfI32 change.insertions)
       | none => []) ++ acc)
    []

/-- The attribution pairs of a commit. -/
def commitChangeOwnerPairs (commit : CommitInfoWithCodeowner) : List (String × Nat) :=
  changeOwnerPairs commit.file_changes

theorem changeOwnerPairs_cons (change : FileChangeWithCodeowner)
    (chs : List FileChangeWithCodeowner) :
    changeOwnerPairs (change :: chs)
      = (match change.codeowners with
         | some codeowners => codeowners.map fun o => (o, usizeOfI32 change.insertions)
         | none => []) ++ changeOwnerPairs chs := rfl

theorem sum_map_constant (l : List α) (c : Nat) : (l.map fun _ => c).sum = l.length * c := by
  induction l with
  | nil => simp
  | cons x xs ih => simp [ih, Nat.succ_mul, Nat.add_comm]

theorem sumBy_assocUpdate [AddCommMonoid M] [DecidableEq κ] (g : β → M)
    (map : List (κ × β)) (k : κ) (dflt : β) (f : β → β) (d : M)
    (hf : g (f dflt) = g dflt + d ∧ ∀ v, g (f v) = g v + d) (hd : g dflt = 0) :
    ((assocUpdate map k dflt f).map fun p => g p.2).sum
      = (map.map fun p => g p.2).sum + d := by
  induction map with
  | nil =>
    simp [assocUpdate, hf.2 dflt, hd]
  | cons p rest ih =>
    obtain ⟨k2, v⟩ := p
    by_cases h : k2 = k
    · simp only [assocUpdate, if_pos h, List.map_cons, List.sum_cons, hf.2 v]
      abel
    · simp only [assocUpdate, if_neg h, List.map_cons, List.sum_cons, ih]
      abel

theorem sumBy_foldl_assocUpdate [AddCommMonoid M] [DecidableEq κ] (g : β → M)
    (dflt : κ → β) (f : κ → β → β) (d : κ → M)
    (hf : ∀ o v, g (f o v) = g v + d o) (hd : ∀ o, g (dflt o) = 0) :
    ∀ (os : List κ) (map : List (κ × β)),
      ((os.foldl (fun m o => assocUpdate m o (dflt o) (f o)) map).map
          fun p => g p.2).sum
        = (map.map fun p => g p.2).sum + (os.map d).sum := by
  intro os
  induction os with
  | nil => simp
  | cons o os ih =>
    intro map
    simp only [List.foldl_cons, List.map_cons, List.sum_cons]
    rw [ih, sumBy_assocUpdate g map o (dflt o) (f o) (d o)
      ⟨hf o (dflt o), fun v => hf o v⟩ (hd o)]
    abel

theorem ownerChangeStep_owners (adjusted : Bool) (commit : CommitInfoWithCodeowner)
    (ctotal : Nat) (cbo : String → Nat) (change : FileChangeWithCodeowner)
    (s : ByOwnerState) (owner : String) :
    (ownerChangeStep adjusted commit ctotal cbo change s owner).owners
      = assocUpdate s.owners owner (defaultOwnerInfo owner)
          (applyChangeToOwnerInfo adjusted ctotal cbo change owner) := by
  unfold ownerChangeStep
  cases hB : change.author_is_codeowner.getD false <;> simp [hB]

theorem foldl_ownerChangeStep_owners (adjusted : Bool)
    (commit : CommitInfoWithCodeowner) (ctotal : Nat) (cbo : String → Nat)
    (change : FileChangeWithCodeowner) :
    ∀ (codeowners : List String) (s : ByOwnerState),
      (codeowners.foldl (ownerChangeStep adjusted commit ctotal cbo change) s).owners
        = codeowners.foldl
            (fun m owner => assocUpdate m owner (defaultOwnerInfo owner)
              (applyChangeToOwnerInfo adjusted ctotal cbo change owner))
            s.owners := by
  intro codeowners
  induction codeowners with
  | nil => intro s; rfl
  | cons o os ih =>
    intro s
    simp only [List.foldl_cons]
    rw [ih, ownerChangeStep_owners]

/-- Claim C4: processing one file change with a resolved owner list of
length `k` adds the change's full insertion count to each of the `k`
owner rows, so the total raw insertions across all owner rows (team and
others pooled) grow by exactly `k * insertions` — no splitting across
owners in raw mode. -/
theorem raw_attribution_no_splitting (adjusted : Bool)
    (commit : CommitInfoWithCodeowner) (ctotal : Nat) (cbo : String → Nat)
    (s : ByOwnerState) (change : FileChangeWithCodeowner) :
    totalRawInsertions (processChange adjusted commit ctotal cbo s change).owners
      = totalRawInsertions s.owners
        + (change.codeowners.getD []).length * usizeOfI32 change.insertions := by
  cases hc : change.codeowners with
  | none => simp [processChange, hc]
  | some codeowners =>
    have hf : ∀ (o : String) (v : OwnerInfo),
        (applyChangeToOwnerInfo adjusted ctotal cbo change o v).total_insertions_by_team
          + (applyChangeToOwnerInfo adjusted ctotal cbo change o v).total_insertions_by_others
        = (v.total_insertions_by_team + v.total_insertions_by_others)
          + usizeOfI32 change.insertions := by
      intro o v
      unfold applyChangeToOwnerInfo
      cases hB : change.author_is_codeowner.getD false <;> simp [hB] <;> omega
    have hd : ∀ o : String,
        (defaultOwnerInfo o).total_insertions_by_team
          + (defaultOwnerInfo o).total_insertions_by_others = 0 := by
      intro o
      rfl
    unfold totalRawInsertions sumOwnersBy
    simp only [processChange, hc]
    rw [foldl_ownerChangeStep_owners, sumBy_foldl_assocUpdate
      (fun oi => oi.total_insertions_by_team + oi.total_insertions_by_others)
      defaultOwnerInfo
      (fun o => applyChangeToOwnerInfo adjusted ctotal cbo change o)
      (fun _ => usizeOfI32 change.insertions) hf hd codeowners s.owners]
    rw [sum_map_constant]
    simp [hc]

theorem foldl_add_const_nat (l : List α) (i : Nat) :
    ∀ acc : Nat, l.foldl (fun a _ => a + i) acc = acc + l.length * i := by
  induction l with
  | nil => intro acc; simp
  | cons x xs ih =>
    intro acc
    simp only [List.foldl_cons, ih, List.length_cons]
    ring

theorem foldl_add_filter_nat (owner : String) (l : List String) (i : Nat) :
    ∀ acc : Nat,
      l.foldl (fun a o => if o = owner then a + i else a) acc
        = acc + (l.filter fun o => o = owner).length * i := by
  induction l with
  | nil => intro acc; simp
  | cons x xs ih =>
    intro acc
    by_cases hx : x = owner
    · simp only [List.foldl_cons, if_pos hx, ih, List.filter_cons]
      rw [if_pos (by simp [hx])]
      simp only [List.length_cons]
      ring
    · simp only [List.foldl_cons, if_neg hx, ih, List.filter_cons]
      rw [if_neg (by simp [hx])]

theorem cti_go :
    ∀ (chs : List FileChangeWithCodeowner) (acc : Nat),
      chs.foldl
        (fun acc change =>
          match change.codeowners with
          | some codeowners =>
            codeowners.foldl (fun acc2 _ => acc2 + usizeOfI32 change.insertions) acc
          | none => acc)
        acc
        = acc + ((changeOwnerPairs chs).map Prod.snd).sum := by
  intro chs
  induction chs with
  | nil => intro acc; simp [changeOwnerPairs]
  | cons change chs ih =>
    intro acc
    cases hc : change.codeowners with
    | none =>
      simp only [List.foldl_cons, hc]
      rw [ih]
      simp [changeOwnerPairs_cons, hc]
    | some codeowners =>
      simp only [List.foldl_cons, hc]
      rw [foldl_add_const_nat, ih]
      have hmap : ((codeowners.map fun o =>
          ((o, usizeOfI32 change.insertions) : String × Nat)).map Prod.snd).sum
          = codeowners.length * usizeOfI32 change.insertions := by
        rw [List.map_map]
        have : (Prod.snd ∘ fun o => ((o, usizeOfI32 change.insertions) : String × Nat))
            = fun _ => usizeOfI32 change.insertions := rfl
        rw [this, sum_map_constant]
      simp only [changeOwnerPairs_cons, hc, List.map_append, List.sum_append, hmap]
      ring

theorem cbo_go (owner : String) :
    ∀ (chs : List FileChangeWithCodeowner) (acc : Nat),
      chs.foldl
        (fun acc change =>
          match change.codeowners with
          | some codeowners =>
            codeowners.foldl
              (fun acc2 o => if o = owner then acc2 + usizeOfI32 change.insertions else acc2)
              acc
          | none => acc)
        acc
        = acc + (((changeOwnerPairs chs).filter fun q => q.1 = owner).map Prod.snd).sum := by
  intro chs
  induction chs with
  | nil => intro acc; simp [changeOwnerPairs]
  | cons change chs ih =>
    intro acc
    cases hc : change.codeowners with
    | none =>
      simp only [List.foldl_cons, hc]
      rw [ih]
      simp [changeOwnerPairs_cons, hc]
    | some codeowners =>
      simp only [List.foldl_cons, hc]
      rw [foldl_add_filter_nat, ih]
      have hmap : ((((codeowners.map fun o =>
            ((o, usizeOfI32 change.insertions) : String × Nat))).filter
              fun q => q.1 = owner).map Prod.snd).sum
          = (codeowners.filter fun o => o = owner).length
              * usizeOfI32 change.insertions := by
        rw [List.filter_map, List.map_map]
        have h1 : ((fun q => decide (q.1 = owner)) ∘ fun o =>
            ((o, usizeOfI32 change.insertions) : String × Nat))
            = fun o => decide (o = owner) := rfl
        have h2 : (Prod.snd ∘ fun o => ((o, usizeOfI32 change.insertions) : String × Nat))
            = fun _ => usizeOfI32 change.insertions := rfl
        rw [h1, h2, sum_map_constant]
      simp only [changeOwnerPairs_cons, hc, List.filter_append, List.map_append,
        List.sum_append, hmap]
      ring

theorem commit_total_insertions_eq_pairs (commit : CommitInfoWithCodeowner) :
    commit_total_insertions commit = ((commitChangeOwnerPairs commit).map Prod.snd).sum := by
  have h := cti_go commit.file_changes 0
  simpa [commit_total_insertions, commitChangeOwnerPairs] using h

theorem commit_changes_by_owner_eq_pairs (commit : CommitInfoWithCodeowner)
    (owner : String) :
    commit_changes_by_owner commit owner
      = (((commitChangeOwnerPairs commit).filter fun q => q.1 = owner).map Prod.snd).sum := by
  have h := cbo_go owner commit.file_changes 0
  simpa [commit_changes_by_owner, commitChangeOwnerPairs] using h

/-- When no owner occurs in two different attribution pairs, summing, for
every pair, the total insertions attributed to that pair's owner gives
back the commit's grand total. -/
theorem sum_cbo_pairs (P : List (String × Nat))
    (hnd : (P.map Prod.fst).Nodup) :
    (P.map fun p => ((P.filter fun q => q.1 = p.1).map Prod.snd).sum).sum
      = (P.map Prod.snd).sum := by
  induction P with
  | nil => simp
  | cons p P ih =>
    simp only [List.map_cons, List.nodup_cons] at hnd
    obtain ⟨hp, hnd2⟩ := hnd
    have hfilterP : P.filter (fun q => q.1 = p.1) = [] := by
      rw [List.filter_eq_nil_iff]
      intro q hq
      simp only [decide_eq_true_eq]
      intro hE
      exact hp (hE ▸ List.mem_map_of_mem Prod.fst hq)
    have hhead : ((p :: P).filter fun q => q.1 = p.1) = [p] := by
      rw [List.filter_cons, if_pos (by simp), hfilterP]
    have htail : ∀ q ∈ P,
        (((p :: P).filter fun q2 => q2.1 = q.1).map Prod.snd).sum
          = ((P.filter fun q2 => q2.1 = q.1).map Prod.snd).sum := by
      intro q hq
      have hqne : ¬ p.1 = q.1 := by
        intro hE
        exact hp (hE ▸ List.mem_map_of_mem Prod.fst hq)
      rw [List.filter_cons, if_neg (by simpa using hqne)]
    calc ((p :: P).map fun p2 =>
          (((p :: P).filter fun q => q.1 = p2.1).map Prod.snd).sum).sum
        = (((p :: P).filter fun q => q.1 = p.1).map Prod.snd).sum
            + (P.map fun p2 =>
              (((p :: P).filter fun q => q.1 = p2.1).map Prod.snd).sum).sum := by
          simp
      _ = p.2 + (P.map fun p2 =>
              ((P.filter fun q => q.1 = p2.1).map Prod.snd).sum).sum := by
          rw [hhead, List.map_congr_left htail]
          simp
      _ = p.2 + (P.map Prod.snd).sum := by rw [ih hnd2]
      _ = ((p :: P).map Prod.snd).sum := by simp

theorem sum_map_div (l : List α) (f : α → ℚ) (c : ℚ) :
    (l.map fun x => f x / c).sum = (l.map f).sum / c := by
  induction l with
  | nil => simp
  | cons x xs ih => simp [ih, add_div]

theorem processChange_totalAdjusted (commit : CommitInfoWithCodeowner)
    (ctotal : Nat) (cbo : String → Nat) (s : ByOwnerState)
    (change : FileChangeWithCodeowner) :
    totalAdjustedCommits (processChange true commit ctotal cbo s change).owners
      = totalAdjustedCommits s.owners
        + ((change.codeowners.getD []).map (commitWeight ctotal cbo)).sum := by
  cases hc : change.codeowners with
  | none => simp [processChange, hc]
  | some codeowners =>
    have hf : ∀ (o : String) (v : OwnerInfo),
        (applyChangeToOwnerInfo true ctotal cbo change o v).adjusted_commits_by_team
          + (applyChangeToOwnerInfo true ctotal cbo change o v).adjusted_commits_by_others
        = (v.adjusted_commits_by_team + v.adjusted_commits_by_others)
          + commitWeight ctotal cbo o := by
      intro o v
      unfold applyChangeToOwnerInfo
      cases hB : change.author_is_codeowner.getD false <;> simp [hB] <;> ring
    have hd : ∀ o : String,
        (defaultOwnerInfo o).adjusted_commits_by_team
          + (defaultOwnerInfo o).adjusted_commits_by_others = (0 : ℚ) := by
      intro o
      simp [defaultOwnerInfo]
    unfold totalAdjustedCommits sumOwnersBy
    simp only [processChange, hc]
    rw [foldl_ownerChangeStep_owners, sumBy_foldl_assocUpdate
      (fun oi => oi.adjusted_commits_by_team + oi.adjusted_commits_by_others)
      defaultOwnerInfo (fun o => applyChangeToOwnerInfo true ctotal cbo change o)
      (commitWeight ctotal cbo) hf hd codeowners s.owners]
    simp

theorem processCommit_totalAdjusted_go (commit : CommitInfoWithCodeowner)
    (ctotal : Nat) (cbo : String → Nat) :
    ∀ (chs : List FileChangeWithCodeowner) (s : ByOwnerState),
      totalAdjustedCommits
          (chs.foldl (processChange true commit ctotal cbo) s).owners
        = totalAdjustedCommits s.owners
          + ((changeOwnerPairs chs).map fun p => commitWeight ctotal cbo p.1).sum := by
  intro chs
  induction chs with
  | nil => intro s; simp [changeOwnerPairs]
  | cons change chs ih =>
    intro s
    simp only [List.foldl_cons]
    rw [ih, processChange_totalAdjusted]
    cases hc : change.codeowners with
    | none =>
      simp [changeOwnerPairs_cons, hc]
    | some codeowners =>
      simp only [changeOwnerPairs_cons, hc, List.map_append, List.sum_append,
        List.map_map, Option.getD_some]
      have : ((fun p => commitWeight ctotal cbo p.1) ∘ fun o =>
          ((o, usizeOfI32 change.insertions) : String × Nat))
          = commitWeight ctotal cbo := rfl
      rw [this]
      ring

theorem processCommit_totalAdjusted (s : ByOwnerState)
    (commit : CommitInfoWithCodeowner) :
    totalAdjustedCommits (processCommit true s commit).owners
      = totalAdjustedCommits s.owners
        + ((commitChangeOwnerPairs commit).map fun p =>
            commitWeight (commit_total_insertions commit)
              (commit_changes_by_owner commit) p.1).sum :=
  processCommit_totalAdjusted_go commit (commit_total_insertions commit)
    (commit_changes_by_owner commit) commit.file_changes s

/-- Claim C1 (amended): in adjusted mode, the per-commit sum of
`adjusted_commits` increments over all owner groups equals `1` exactly
under the additional hypothesis that no owner is attributed by two
different change/owner pairs of the commit (each owner touched by
exactly one change); it is `0` when the commit has no attributed
insertions. Each individual increment is
`commit_changes_by_owner[owner] / commit_total_insertions`, where both
statistics count a change once per listed owner. Without the
no-duplicate-owner hypothesis the sum can exceed `1` (see the
counterexample). -/
theorem adjusted_commit_weight_sum (s : ByOwnerState)
    (commit : CommitInfoWithCodeowner)
    (hnd : ((commitChangeOwnerPairs commit).map Prod.fst).Nodup) :
    (0 < commit_total_insertions commit →
      totalAdjustedCommits (processCommit true s commit).owners
        = totalAdjustedCommits s.owners + 1)
    ∧ (commit_total_insertions commit = 0 →
      totalAdjustedCommits (processCommit true s commit).owners
        = totalAdjustedCommits s.owners) := by
  constructor
  · intro hpos
    rw [processCommit_totalAdjusted]
    have hw : ∀ p ∈ commitChangeOwnerPairs commit,
        commitWeight (commit_total_insertions commit)
            (commit_changes_by_owner commit) p.1
          = (commit_changes_by_owner commit p.1 : ℚ)
              / (commit_total_insertions commit : ℚ) := by
      intro p _
      simp [commitWeight, hpos]
    rw [List.map_congr_left hw]
    have hdiv : ((commitChangeOwnerPairs commit).map fun p =>
        (commit_changes_by_owner commit p.1 : ℚ)
          / (commit_total_insertions commit : ℚ)).sum
        = (((commitChangeOwnerPairs commit).map fun p =>
            (commit_changes_by_owner commit p.1 : ℚ)).sum)
          / (commit_total_insertions commit : ℚ) :=
      sum_map_div _ _ _
    rw [hdiv]
    have hnum : ((commitChangeOwnerPairs commit).map fun p =>
        (commit_changes_by_owner commit p.1 : ℚ)).sum
        = (commit_total_insertions commit : ℚ) := by
      have hcast : ((commitChangeOwnerPairs commit).map fun p =>
          (commit_changes_by_owner commit p.1 : ℚ)).sum
          = ((((commitChangeOwnerPairs commit).map fun p =>
              commit_changes_by_owner commit p.1).sum : Nat) : ℚ) := by
        rw [Nat.cast_list_sum, List.map_map]
        rfl
      rw [hcast]
      have hsum : ((commitChangeOwnerPairs commit).map fun p =>
          commit_changes_by_owner commit p.1).sum
          = commit_total_insertions commit := by
        have hcongr : ∀ p ∈ commitChangeOwnerPairs commit,
            commit_changes_by_owner commit p.1
              = (((commitChangeOwnerPairs commit).filter
                  fun q => q.1 = p.1).map Prod.snd).sum := by
          intro p _
          exact commit_changes_by_owner_eq_pairs commit p.1
        rw [List.map_congr_left hcongr, sum_cbo_pairs _ hnd,
          ← commit_total_insertions_eq_pairs]
      rw [hsum]
    rw [hnum, div_self (Nat.cast_ne_zero.mpr hpos.ne')]
  · intro hzero
    rw [processCommit_totalAdjusted]
    have hw : ∀ p ∈ commitChangeOwnerPairs commit,
        commitWeight (commit_total_insertions commit)
            (commit_changes_by_owner commit) p.1 = 0 := by
      intro p _
      simp [commitWeight, hzero]
    rw [List.map_congr_left hw]
    simp

/-- Claim C1 counterexample: a commit with two changes both owned by the
single group `A`, one insertion each. The commit qualifies (it has
changes with nonzero insertions touching an owner), yet the sum of its
`adjusted_commits` increments is `2`, not `1`: the per-owner weight
`commit_changes_by_owner[A] / commit_total_insertions = 1` is added once
per change. -/
theorem adjusted_commit_weight_sum_cex :
    totalAdjustedCommits
        (processCommit true ⟨[], [], []⟩
          ⟨"c", "alice", "alice@x", 0,
            [⟨1, 0, "f1", some ["A"], some true⟩,
             ⟨1, 0, "f2", some ["A"], some true⟩]⟩).owners = 2 ∧
    (2 : ℚ) ≠ 1 ∧
    (∃ change ∈ ([⟨1, 0, "f1", some ["A"], some true⟩,
        ⟨1, 0, "f2", some ["A"], some true⟩] : List FileChangeWithCodeowner),
      change.insertions ≠ 0 ∧ change.codeowners.getD [] ≠ []) := by
  refine ⟨?_, by norm_num, by decide⟩
  norm_num [processCommit, processChange, ownerChangeStep, applyChangeToOwnerInfo,
    commitWeight, commit_total_insertions, commit_changes_by_owner, usizeOfI32,
    totalAdjustedCommits, sumOwnersBy, assocUpdate, update_contributor_stats,
    defaultOwnerInfo]

/-- Witness for C1 (amended): a commit with one change attributed to two
owners; the weight sum is exactly `1`. -/
theorem adjusted_commit_weight_sum_witness :
    totalAdjustedCommits
        (processCommit true ⟨[], [], []⟩
          ⟨"c", "alice", "alice@x", 0,
            [⟨3, 0, "f", some ["A", "B"], some false⟩]⟩).owners
      = totalAdjustedCommits (ByOwnerState.mk [] [] []).owners + 1 :=
  (adjusted_commit_weight_sum ⟨[], [], []⟩
    ⟨"c", "alice", "alice@x", 0, [⟨3, 0, "f", some ["A", "B"], some false⟩]⟩
    (by decide)).1 (by decide)

/-! ### `analyze.rs`: unowned changes and the contributor bucket -/

/-- The owner bucket of `analyze_by_contributor`: the first owner of a
nonempty owner list, otherwise the synthetic `<unowned>` group. -/
def contributorOwnerBucket (change : FileChangeWithCodeowner) : String :=
  match change.codeowners with
  | some (o :: _) => o
  | _ => "<unowned>"

theorem assocUpdate_keys [DecidableEq κ] (map : List (κ × β)) (k : κ)
    (dflt : β) (f : β → β) (k2 : κ) :
    k2 ∈ (assocUpdate map k dflt f).map Prod.fst ↔
      (k2 ∈ map.map Prod.fst ∨ k2 = k) := by
  induction map with
  | nil => simp [assocUpdate]
  | cons p rest ih =>
    obtain ⟨k3, v⟩ := p
    by_cases h3 : k3 = k
    · subst h3
      rw [show assocUpdate ((k3, v) :: rest) k3 dflt f = (k3, f v) :: rest from by
        simp [assocUpdate]]
      simp only [List.map_cons, List.mem_cons]
      tauto
    · rw [show assocUpdate ((k3, v) :: rest) k dflt f
          = (k3, v) :: assocUpdate rest k dflt f from by
        simp [assocUpdate, h3]]
      simp only [List.map_cons, List.mem_cons, ih]
      tauto

theorem foldl_assocUpdate_keys [DecidableEq κ] (dflt : κ → β) (f : κ → β → β) :
    ∀ (os : List κ) (map : List (κ × β)) (k2 : κ),
      k2 ∈ ((os.foldl (fun m2 o => assocUpdate m2 o (dflt o) (f o)) map).map Prod.fst)
        ↔ (k2 ∈ map.map Prod.fst ∨ k2 ∈ os) := by
  intro os
  induction os with
  | nil => intro map k2; simp
  | cons o os ih =>
    intro map k2
    simp only [List.foldl_cons, ih, assocUpdate_keys, List.mem_cons]
    tauto

/-- Claim C5: a change with no resolved owner set leaves every
`analyze_by_owner` accumulator untouched (it appears in no owner-group
row) and is bucketed under the synthetic `<unowned>` group in the
contributor view; a change with a nonempty owner list is bucketed under
its first owner only in the contributor view, while the owner report
creates/updates a row for every owner in the list. -/
theorem unowned_and_first_owner_bucketing :
    (∀ (adjusted : Bool) (commit : CommitInfoWithCodeowner) (ctotal : Nat)
        (cbo : String → Nat) (s : ByOwnerState) (change : FileChangeWithCodeowner),
      change.codeowners = none → processChange adjusted commit ctotal cbo s change = s)
    ∧ (∀ change : FileChangeWithCodeowner, change.codeowners = none →
        contributorOwnerBucket change = "<unowned>")
    ∧ (∀ (change : FileChangeWithCodeowner) (o : String) (os : List String),
        change.codeowners = some (o :: os) → contributorOwnerBucket change = o)
    ∧ (∀ (adjusted : Bool) (commit : CommitInfoWithCodeowner) (ctotal : Nat)
        (cbo : String → Nat) (s : ByOwnerState) (change : FileChangeWithCodeowner)
        (o : String),
      o ∈ (processChange adjusted commit ctotal cbo s change).owners.map Prod.fst
        ↔ (o ∈ s.owners.map Prod.fst ∨ o ∈ change.codeowners.getD [])) := by
  refine ⟨?_, ?_, ?_, ?_⟩
  · intro adjusted commit ctotal cbo s change h
    simp [processChange, h]
  · intro change h
    simp [contributorOwnerBucket, h]
  · intro change o os h
    simp [contributorOwnerBucket, h]
  · intro adjusted commit ctotal cbo s change o
    cases hc : change.codeowners with
    | none => simp [processChange, hc]
    | some codeowners =>
      simp only [processChange, hc, Option.getD_some]
      rw [foldl_ownerChangeStep_owners]
      exact foldl_assocUpdate_keys _ _ codeowners s.owners o

/-- Witness for C5 at concrete changes: an unowned change is dropped by
the owner accumulation and bucketed `<unowned>`; a change owned by `A`
and `B` is bucketed under `A` but creates owner rows for both `A` and
`B`. -/
theorem unowned_and_first_owner_bucketing_witness :
    processChange false ⟨"c", "a", "a@x", 0, []⟩ 0 (fun _ => 0) ⟨[], [], []⟩
        ⟨1, 0, "x.rs", none, none⟩ = (⟨[], [], []⟩ : ByOwnerState) ∧
    contributorOwnerBucket ⟨1, 0, "x.rs", none, none⟩ = "<unowned>" ∧
    contributorOwnerBucket ⟨1, 0, "y.rs", some ["A", "B"], some true⟩ = "A" ∧
    ("B" ∈ ((processChange false ⟨"c", "a", "a@x", 0, []⟩ 0 (fun _ => 0)
        ⟨[], [], []⟩ ⟨1, 0, "y.rs", some ["A", "B"], some true⟩).owners.map Prod.fst)
      ↔ ("B" ∈ (([] : List (String × OwnerInfo)).map Prod.fst)
          ∨ "B" ∈ (some ["A", "B"] : Option (List String)).getD [])) :=
  ⟨unowned_and_first_owner_bucketing.1 false ⟨"c", "a", "a@x", 0, []⟩ 0 (fun _ => 0)
      ⟨[], [], []⟩ ⟨1, 0, "x.rs", none, none⟩ rfl,
   unowned_and_first_owner_bucketing.2.1 ⟨1, 0, "x.rs", none, none⟩ rfl,
   unowned_and_first_owner_bucketing.2.2.1 ⟨1, 0, "y.rs", some ["A", "B"], some true⟩
      "A" ["B"] rfl,
   unowned_and_first_owner_bucketing.2.2.2 false ⟨"c", "a", "a@x", 0, []⟩ 0
      (fun _ => 0) ⟨[], [], []⟩ ⟨1, 0, "y.rs", some ["A", "B"], some true⟩ "B"⟩

/-! ### `analyze.rs`: `analyze_by_contributor`

A parallel, owner-agnostic view: one accumulator entry per
`(author_name, author_email)` pair, holding a `Vec` of per-owner
breakdowns searched linearly by owner name (`find`), pushed at the end
when absent. -/

structure ContributionsByOwnerInfo where
  owner : String
  total_insertions : Nat
  total_deletions : Nat
  total_commits : Nat
  adjusted_changes : Nat
  adjusted_commits : ℚ
deriving DecidableEq

structure ContributorInfo where
  author_name : String
  author_email : String
  contributions : List ContributionsByOwnerInfo
deriving DecidableEq

/-- Pass 1 of `analyze_by_contributor`: the commit's total insertions,
counted once per change (unlike `analyze_by_owner`'s pass 1). -/
def contrib_commit_total_insertions (commit : CommitInfoWithCodeowner) : Nat :=
  commit.file_changes.foldl (fun acc change => acc + usizeOfI32 change.insertions) 0

/-- Pass 1 of `analyze_by_contributor`: insertions per first-owner
bucket, read through `get(owner).unwrap_or(&0)`. -/
def contrib_commit_changes_by_owner (commit : CommitInfoWithCodeowner)
    (owner : String) : Nat :=
  commit.file_changes.foldl
    (fun acc change =>
      if contributorOwnerBucket change = owner then acc + usizeOfI32 change.insertions
      else acc)
    0

/-- The find-or-push update of one contributor's per-owner breakdown
vector for one change. -/
def updateContributionsList (adjusted : Bool) (ctotal : Nat) (cbo : String → Nat)
    (change : FileChangeWithCodeowner) (owner : String) :
    List ContributionsByOwnerInfo → List ContributionsByOwnerInfo
  | [] =>
    [⟨owner, usizeOfI32 change.insertions, usizeOfI32 change.deletions, 1,
      (if adjusted then usizeOfI32 change.insertions else 0),
      (if adjusted then commitWeight ctotal cbo owner else 0)⟩]
  | c :: rest =>
    if c.owner = owner then
      { c with
        total_insertions := c.total_insertions + usizeOfI32 change.insertions
        total_deletions := c.total_deletions + usizeOfI32 change.deletions
        total_commits := c.total_commits + 1
        adjusted_changes :=
          if adjusted then c.adjusted_changes + usizeOfI32 change.insertions
          else c.adjusted_changes
        adjusted_commits :=
          if adjusted then c.adjusted_commits + commitWeight ctotal cbo owner
          else c.adjusted_commits } :: rest
    else c :: updateContributionsList adjusted ctotal cbo change owner rest

/-- The contributor accumulator. -/
abbrev ContribMap := List ((String × String) × List ContributionsByOwnerInfo)

/-- Pass 2 of `analyze_by_contributor` for one change. -/
def processContribChange (adjusted : Bool) (commit : CommitInfoWithCodeowner)
    (ctotal : Nat) (cbo : String → Nat) (m : ContribMap)
    (change : FileChangeWithCodeowner) : ContribMap :=
  assocUpdate m (commit.author_name, commit.author_email) []
    (updateContributionsList adjusted ctotal cbo change (contributorOwnerBucket change))

/-- One commit of `analyze_by_contributor`. -/
def processContribCommit (adjusted : Bool) (m : ContribMap)
    (commit : CommitInfoWithCodeowner) : ContribMap :=
  commit.file_changes.foldl
    (processContribChange adjusted commit (contrib_commit_total_insertions commit)
      (contrib_commit_changes_by_owner commit))
    m

/-- `analyze_by_contributor`: accumulate; per row, sort the per-owner
breakdowns by commit count descending; sort the rows by author name
ascending. -/
def analyze_by_contributor (commits : List CommitInfoWithCodeowner)
    (adjusted : Bool) : List ContributorInfo :=
  sortStable (fun a b => strLe a.author_name b.author_name)
    ((commits.foldl (processContribCommit adjusted) []).map fun p =>
      ⟨p.1.1, p.1.2,
        sortStable (fun a b => decide (b.total_commits ≤ a.total_commits)) p.2⟩)

theorem assocUpdate_keys_nodup [DecidableEq κ] (map : List (κ × β)) (k : κ)
    (dflt : β) (f : β → β) (h : (map.map Prod.fst).Nodup) :
    ((assocUpdate map k dflt f).map Prod.fst).Nodup := by
  induction map with
  | nil => simp [assocUpdate]
  | cons p rest ih =>
    obtain ⟨k3, v⟩ := p
    simp only [List.map_cons, List.nodup_cons] at h
    obtain ⟨h3r, hr⟩ := h
    by_cases h3 : k3 = k
    · subst h3
      rw [show assocUpdate ((k3, v) :: rest) k3 dflt f = (k3, f v) :: rest from by
        simp [assocUpdate]]
      simp only [List.map_cons, List.nodup_cons]
      exact ⟨h3r, hr⟩
    · rw [show assocUpdate ((k3, v) :: rest) k dflt f
          = (k3, v) :: assocUpdate rest k dflt f from by
        simp [assocUpdate, h3]]
      simp only [List.map_cons, List.nodup_cons]
      refine ⟨?_, ih hr⟩
      intro hmem
      rcases (assocUpdate_keys rest k dflt f k3).mp hmem with hmem | hmem
      · exact h3r hmem
      · exact h3 hmem

theorem foldl_processContribChange_nodup (adjusted : Bool)
    (commit : CommitInfoWithCodeowner) (ctotal : Nat) (cbo : String → Nat) :
    ∀ (chs : List FileChangeWithCodeowner) (m : ContribMap),
      (m.map Prod.fst).Nodup →
      (((chs.foldl (processContribChange adjusted commit ctotal cbo) m).map
        Prod.fst)).Nodup := by
  intro chs
  induction chs with
  | nil => intro m h; exact h
  | cons change chs ih =>
    intro m h
    simp only [List.foldl_cons]
    exact ih _ (assocUpdate_keys_nodup _ _ _ _ h)

theorem accumulate_contrib_nodup (adjusted : Bool) :
    ∀ (commits : List CommitInfoWithCodeowner) (m : ContribMap),
      (m.map Prod.fst).Nodup →
      ((commits.foldl (processContribCommit adjusted) m).map Prod.fst).Nodup := by
  intro commits
  induction commits with
  | nil => intro m h; exact h
  | cons commit commits ih =>
    intro m h
    simp only [List.foldl_cons]
    exact ih _ (foldl_processContribChange_nodup adjusted commit _ _
      commit.file_changes m h)

/-- Claim C8 counterexample: contributor `a` has one commit-count, `b`
has two; the report lists `a` first (rows are sorted by author name
ascending), so the rows are not sorted by total commit count descending. -/
theorem contributor_rows_sorted_cex :
    ¬ ((analyze_by_contributor
        [⟨"1", "b", "b@x", 0,
            [⟨1, 0, "f1", some ["X"], none⟩, ⟨1, 0, "f2", some ["X"], none⟩]⟩,
         ⟨"2", "a", "a@x", 0, [⟨1, 0, "f1", some ["X"], none⟩]⟩] false).Pairwise
      fun r1 r2 => (r2.contributions.map fun c => c.total_commits).sum
          ≤ (r1.contributions.map fun c => c.total_commits).sum) := by
  decide

/-- Claim C8 (amended): the contributor report has one row per distinct
`(author_name, author_email)` pair; its rows are sorted by author name
ascending (not by commit count); within each row the per-owner
contribution breakdowns are sorted by total commit count descending. -/
theorem contributor_report_shape (commits : List CommitInfoWithCodeowner)
    (adjusted : Bool) :
    ((analyze_by_contributor commits adjusted).map fun r =>
        (r.author_name, r.author_email)).Nodup
    ∧ (analyze_by_contributor commits adjusted).Pairwise
        (fun r1 r2 => strLe r1.author_name r2.author_name = true)
    ∧ ∀ r ∈ analyze_by_contributor commits adjusted,
        r.contributions.Pairwise fun a b => b.total_commits ≤ a.total_commits := by
  refine ⟨?_, ?_, ?_⟩
  · have hacc := accumulate_contrib_nodup adjusted commits [] (by simp)
    have hrows : (((commits.foldl (processContribCommit adjusted) []).map fun p =>
        (⟨p.1.1, p.1.2,
          sortStable (fun a b => decide (b.total_commits ≤ a.total_commits)) p.2⟩ :
          ContributorInfo)).map fun r => (r.author_name, r.author_email)).Nodup := by
      rw [List.map_map]
      exact hacc
    have hperm := (sortStable_perm (fun a b : ContributorInfo =>
      strLe a.author_name b.author_name)
      ((commits.foldl (processContribCommit adjusted) []).map fun p =>
        ⟨p.1.1, p.1.2,
          sortStable (fun a b => decide (b.total_commits ≤ a.total_commits)) p.2⟩)).map
      fun r : ContributorInfo => (r.author_name, r.author_email)
    exact hperm.symm.nodup hrows
  · exact sortStable_pairwise
      (fun a b : ContributorInfo => strLe a.author_name b.author_name)
      (fun a b c hab hbc => strLe_trans _ _ _ hab hbc)
      (fun a b => strLe_total _ _)
      ((commits.foldl (processContribCommit adjusted) []).map fun p =>
        ⟨p.1.1, p.1.2,
          sortStable (fun a b => decide (b.total_commits ≤ a.total_commits)) p.2⟩)
  · intro r hr
    have hperm := sortStable_perm (fun a b : ContributorInfo =>
      strLe a.author_name b.author_name)
      ((commits.foldl (processContribCommit adjusted) []).map fun p =>
        ⟨p.1.1, p.1.2,
          sortStable (fun a b => decide (b.total_commits ≤ a.total_commits)) p.2⟩)
    have hr2 := hperm.mem_iff.mp hr
    rcases List.mem_map.mp hr2 with ⟨p, _, rfl⟩
    have hpw := sortStable_pairwise
      (fun a b : ContributionsByOwnerInfo => decide (b.total_commits ≤ a.total_commits))
      (fun a b c hab hbc => by
        simp only [decide_eq_true_eq] at hab hbc ⊢
        exact le_trans hbc hab)
      (fun a b => by
        simp only [Bool.or_eq_true, decide_eq_true_eq]
        exact le_total b.total_commits a.total_commits)
      p.2
    exact hpw.imp fun hab => of_decide_eq_true hab

/-- Witness for C8 at the counterexample input: keys are duplicate-free
and contributor `b`'s row carries the merged, commit-count-sorted
breakdown. -/
theorem contributor_report_shape_witness :
    ((analyze_by_contributor
        [⟨"1", "b", "b@x", 0,
            [⟨1, 0, "f1", some ["X"], none⟩, ⟨1, 0, "f2", some ["X"], none⟩]⟩,
         ⟨"2", "a", "a@x", 0, [⟨1, 0, "f1", some ["X"], none⟩]⟩] false).map fun r =>
        (r.author_name, r.author_email)).Nodup ∧
    (ContributorInfo.mk "b" "b@x" [⟨"X", 2, 0, 2, 0, 0⟩]).contributions.Pairwise
      (fun a b => b.total_commits ≤ a.total_commits) :=
  ⟨(contributor_report_shape
      [⟨"1", "b", "b@x", 0,
          [⟨1, 0, "f1", some ["X"], none⟩, ⟨1, 0, "f2", some ["X"], none⟩]⟩,
       ⟨"2", "a", "a@x", 0, [⟨1, 0, "f1", some ["X"], none⟩]⟩] false).1,
   (contributor_report_shape
      [⟨"1", "b", "b@x", 0,
          [⟨1, 0, "f1", some ["X"], none⟩, ⟨1, 0, "f2", some ["X"], none⟩]⟩,
       ⟨"2", "a", "a@x", 0, [⟨1, 0, "f1", some ["X"], none⟩]⟩] false).2.2
     ⟨"b", "b@x", [⟨"X", 2, 0, 2, 0, 0⟩]⟩ (by decide)⟩

/-! ### Claim C6: dependence of the reports on map iteration order -/

/-- Claim C6 counterexample: two materialisation orders of the same
per-owner contributor pool — a two-element map whose entries are tied on
both metrics — yield different top-ten lists: the stable sorts preserve
the hash map's arbitrary iteration order among ties, so two runs need
not produce identical report rows. -/
theorem report_iteration_order_cex :
    (([(("a", "a@x"), (5, 1)), (("b", "b@x"), (5, 1))] : ContribStats).Perm
      [(("b", "b@x"), (5, 1)), (("a", "a@x"), (5, 1))]) ∧
    update_top_contributors [(("a", "a@x"), (5, 1)), (("b", "b@x"), (5, 1))]
      ≠ update_top_contributors [(("b", "b@x"), (5, 1)), (("a", "a@x"), (5, 1))] := by
  constructor
  · exact List.Perm.swap _ _ _
  · decide

/-- Claim C6 (amended): the sorted owner rows, the contributor rows and
the top-ten lists are independent of the accumulator hash maps'
iteration order exactly as far as the sort keys are collision-free: owner
rows sorted by (unique) owner name and contributor rows sorted by
(duplicate-free) author name agree for any two materialisation orders,
and the two top-ten lists agree when the cumulative-changes metrics
(respectively the commit-count metrics) contain no ties; with ties, the
stable sorts keep the iteration order (see the counterexample). -/
theorem report_order_independence :
    (∀ l1 l2 : List OwnerInfo, l1.Perm l2 → (l1.map fun oi => oi.owner).Nodup →
      sortStable (fun a b => strLe a.owner b.owner) l1
        = sortStable (fun a b => strLe a.owner b.owner) l2)
    ∧ (∀ l1 l2 : ContribStats, l1.Perm l2 → (l1.map fun p => p.2.1).Nodup →
        update_top_contributors l1 = update_top_contributors l2)
    ∧ (∀ l1 l2 : ContribStats, l1.Perm l2 → (l1.map fun p => p.2.2).Nodup →
        (update_top_contributors l1).2 = (update_top_contributors l2).2)
    ∧ (∀ r1 r2 : List ContributorInfo, r1.Perm r2 →
        (r1.map fun r => r.author_name).Nodup →
        sortStable (fun a b => strLe a.author_name b.author_name) r1
          = sortStable (fun a b => strLe a.author_name b.author_name) r2) := by
  have natTrans : ∀ x y z : Nat, (fun x y => decide (y ≤ x)) x y = true →
      (fun x y => decide (y ≤ x)) y z = true → (fun x y => decide (y ≤ x)) x z = true := by
    intro x y z hxy hyz
    simp only [decide_eq_true_eq] at hxy hyz ⊢
    exact le_trans hyz hxy
  have natTot : ∀ x y : Nat, ((fun x y => decide (y ≤ x)) x y
      || (fun x y => decide (y ≤ x)) y x) = true := by
    intro x y
    simp only [Bool.or_eq_true, decide_eq_true_eq]
    exact le_total y x
  have natAnti : ∀ x y : Nat, (fun x y => decide (y ≤ x)) x y = true →
      (fun x y => decide (y ≤ x)) y x = true → x = y := by
    intro x y hxy hyx
    simp only [decide_eq_true_eq] at hxy hyx
    exact le_antisymm hyx hxy
  refine ⟨?_, ?_, ?_, ?_⟩
  · intro l1 l2 hp hnd
    exact sortStable_eq_of_perm (fun oi : OwnerInfo => oi.owner) strLe
      strLe_trans strLe_total strLe_antisymm l1 l2 hp hnd
  · intro l1 l2 hp hnd
    have e1 : sortedByChanges l1 = sortedByChanges l2 :=
      sortStable_eq_of_perm (fun p : (String × String) × (Nat × Nat) => p.2.1)
        (fun x y => decide (y ≤ x)) natTrans natTot natAnti l1 l2 hp hnd
    simp only [update_top_contributors, e1]
  · intro l1 l2 hp hnd
    have hperm : (sortedByChanges l1).Perm (sortedByChanges l2) :=
      ((sortStable_perm _ l1).trans hp).trans (sortStable_perm _ l2).symm
    have hnd1 : ((sortedByChanges l1).map fun p => p.2.2).Nodup :=
      (((sortStable_perm _ l1).map fun p => p.2.2).nodup_iff).mpr hnd
    have e2 : sortedByCommits (sortedByChanges l1)
        = sortedByCommits (sortedByChanges l2) :=
      sortStable_eq_of_perm (fun p : (String × String) × (Nat × Nat) => p.2.2)
        (fun x y => decide (y ≤ x)) natTrans natTot natAnti _ _ hperm hnd1
    simp only [update_top_contributors, e2]
  · intro r1 r2 hp hnd
    exact sortStable_eq_of_perm (fun r : ContributorInfo => r.author_name) strLe
      strLe_trans strLe_total strLe_antisymm r1 r2 hp hnd

/-- Witness for C6 (amended) on concrete two-entry pools with
duplicate-free metrics: both materialisation orders give the same top
lists, and two orders of two owner rows sort identically. -/
theorem report_order_independence_witness :
    update_top_contributors [(("a", "a@x"), (1, 2)), (("b", "b@x"), (3, 4))]
      = update_top_contributors [(("b", "b@x"), (3, 4)), (("a", "a@x"), (1, 2))] ∧
    sortStable (fun a b : OwnerInfo => strLe a.owner b.owner)
        [defaultOwnerInfo "o2", defaultOwnerInfo "o1"]
      = sortStable (fun a b : OwnerInfo => strLe a.owner b.owner)
        [defaultOwnerInfo "o1", defaultOwnerInfo "o2"] :=
  ⟨report_order_independence.2.1 _ _ (List.Perm.swap _ _ _) (by decide),
   report_order_independence.1 _ _ (List.Perm.swap _ _ _) (by decide)⟩

end Bound
